import Mathlib

/-!
# Mark-sweep garbage collector (`garbagecollector.c`)

A shallow embedding of the virtual machine and its collector.

* Memory is a finite list of cells; an address is an index into it.  A cell is
  `none` when it was never handed out or has been passed to `free`.  `malloc`
  hands out the first address past the end, so addresses are never reused.
* A C pointer is `Option Nat`; `none` is `NULL`.
* The operand stack `stack[0 .. stackSize)` is a list whose last entry is the
  top; `stackSize` is its length.
* The product `numObjects * 2` of `gc` is an `int` product: it is taken modulo
  2^32 (`wrapInt`), so that it is `2 * numObjects` only below 2^30 objects.  The
  counter itself moves by one at a time and is kept exact, which is what the
  source computes while fewer than 2^31 objects are counted.
* A failed `assert` ends the process; the state at that point is kept in the
  outcome so that it can be inspected.
* The anonymous union of `Object` is flattened into three fields; the source
  only ever reads the member that matches `type`.  What `malloc` leaves
  uninitialised reads as 0 or `NULL` until the caller assigns it.
* `mark` and the loop of `sweep` carry a bound on their depth and length; on
  valid states the bound is never reached (`markFuel_fuel`, `gc_spec`).
* The `printf` of `gc` is not modelled.
-/

namespace GC

/-! ## Data model -/

/-- `#define STACK_MAX 256` -/
def STACK_MAX : Nat := 256

/-- `#define INT_OBJ_NUM_MAX 8` -/
def INT_OBJ_NUM_MAX : Int := 8

/-- What a C `int` holds after an arithmetic result `z`: `z` modulo 2^32, taken
in the range from `-2^31` up to `2^31 - 1`. -/
def wrapInt (z : Int) : Int := (z + 2147483648) % 4294967296 - 2147483648

/-- The counts from which on `numObjects * 2` no longer fits an `int`: 2^30. -/
def COUNT_LIMIT : Int := 1073741824

/-- Modelled from the spec: `gc` names a constant `INIT_OBJ_NUM_MAX` that the
source never defines (the only definition is `INT_OBJ_NUM_MAX`).  The spec says
that the recomputation reuses the initial threshold value, so it is that one. -/
def INIT_OBJ_NUM_MAX : Int := INT_OBJ_NUM_MAX

/-- A pointer to an `Object`; `none` is `NULL`. -/
abbrev Ptr := Option Nat

/-- `typedef enum { OBJ_INT, OBJ_PAIR } ObjectType;` -/
inductive ObjectType where
  | OBJ_INT
  | OBJ_PAIR
deriving DecidableEq

/-- `struct sObject`. -/
structure Object where
  type : ObjectType
  marked : Bool
  next : Ptr
  value : Int
  head : Ptr
  tail : Ptr
deriving DecidableEq

/-- The cells handed out by `malloc`, by address. -/
abbrev Heap := List (Option Object)

/-- The `VM` struct together with the memory its pointers refer to. -/
structure VM where
  heap : Heap
  stack : List Ptr
  firstObject : Ptr
  numObjects : Int
  maxObjects : Int
deriving DecidableEq

/-- Ways in which a run stops early. -/
inductive Fault where
  | stackOverflow
  | stackUnderflow
  | invalidDeref
  | outOfFuel
deriving DecidableEq

deriving instance DecidableEq for Except

/-- Result of a stack-level operation: a value and the new state, or the fault
and the state in which the process stopped. -/
inductive Outcome (α : Type) where
  | ok (val : α) (vm : VM)
  | fail (f : Fault) (vm : VM)
deriving DecidableEq

/-- The cell at address `a`, if it is live. -/
def hread (h : Heap) (a : Nat) : Option Object := h.getD a none

/-- Store `o` at address `a`. -/
def hwrite (h : Heap) (a : Nat) (o : Object) : Heap := h.set a (some o)

/-- `free(a)`. -/
def hfree (h : Heap) (a : Nat) : Heap := h.set a none

/-- Assign to fields of the live cell at `a`. -/
def hupdate (h : Heap) (a : Nat) (f : Object → Object) : Heap :=
  match hread h a with
  | some o => hwrite h a (f o)
  | none => h

/-! ## The program -/

/-- `newVM` -/
def newVM : VM :=
  { heap := [], stack := [], firstObject := none, numObjects := 0,
    maxObjects := INT_OBJ_NUM_MAX }

/-- `push` -/
def push (vm : VM) (value : Ptr) : Outcome Unit :=
  if vm.stack.length < STACK_MAX then
    .ok () { vm with stack := vm.stack ++ [value] }
  else .fail .stackOverflow vm

/-- `pop` -/
def pop (vm : VM) : Outcome Ptr :=
  if vm.stack.length > 0 then
    .ok (vm.stack.getD (vm.stack.length - 1) none)
      { vm with stack := vm.stack.take (vm.stack.length - 1) }
  else .fail .stackUnderflow vm

/-- Number of live cells whose mark is clear. -/
def unmarkedCount (h : Heap) : Nat :=
  h.countP (fun c => match c with
    | some o => !o.marked
    | none => false)

/-- `mark`, with a bound on the recursion depth. -/
def markFuel : Nat → Heap → Ptr → Except Fault Heap
  | 0, _, _ => .error .outOfFuel
  | _ + 1, _, none => .error .invalidDeref
  | n + 1, h, some a =>
    match hread h a with
    | none => .error .invalidDeref
    | some o =>
      if o.marked then .ok h
      else
        let h1 := hwrite h a { o with marked := true }
        if o.type = .OBJ_PAIR then
          match markFuel n h1 o.head with
          | .error f => .error f
          | .ok h2 => markFuel n h2 o.tail
        else .ok h1

/-- `mark`: every nested call marks a cell that was clear, so the depth never
exceeds the number of clear cells plus one. -/
def mark (h : Heap) (object : Ptr) : Except Fault Heap :=
  markFuel (unmarkedCount h + 1) h object

/-- The loop of `markAll` over the entries still to visit. -/
def markList : List Ptr → Heap → Except Fault Heap
  | [], h => .ok h
  | p :: ps, h =>
    match mark h p with
    | .error f => .error f
    | .ok h1 => markList ps h1

/-- `markAll` -/
def markAll (vm : VM) : Except Fault VM :=
  match markList vm.stack vm.heap with
  | .error f => .error f
  | .ok h => .ok { vm with heap := h }

/-- The `Object**` cursor of `sweep`: `none` is `&vm->firstObject`, `some b` is
`&b->next`. -/
abbrev Loc := Option Nat

/-- `*object` -/
def loadLoc (vm : VM) : Loc → Except Fault Ptr
  | none => .ok vm.firstObject
  | some b =>
    match hread vm.heap b with
    | none => .error .invalidDeref
    | some o => .ok o.next

/-- `*object = p` -/
def storeLoc (vm : VM) (p : Ptr) : Loc → VM
  | none => { vm with firstObject := p }
  | some b => { vm with heap := hupdate vm.heap b (fun o => { o with next := p }) }

/-- The `while` loop of `sweep`, with a bound on the number of iterations. -/
def sweepLoop : Nat → VM → Loc → Except Fault VM
  | 0, _, _ => .error .outOfFuel
  | n + 1, vm, object =>
    match loadLoc vm object with
    | .error f => .error f
    | .ok none => .ok vm
    | .ok (some a) =>
      match hread vm.heap a with
      | none => .error .invalidDeref
      | some o =>
        if !o.marked then
          let vm1 := storeLoc vm o.next object
          sweepLoop n { vm1 with heap := hfree vm1.heap a,
                                 numObjects := vm1.numObjects - 1 } object
        else
          sweepLoop n { vm with heap := hwrite vm.heap a { o with marked := false } }
            (some a)

/-- `sweep`: every iteration handles one cell of the list, so one more than the
number of cells is enough. -/
def sweep (vm : VM) : Except Fault VM :=
  sweepLoop (vm.heap.length + 1) vm none

/-- `gc`; the new threshold `numObjects * 2` is a product of `int`s. -/
def gc (vm : VM) : Except Fault VM :=
  match markAll vm with
  | .error f => .error f
  | .ok vm1 =>
    match sweep vm1 with
    | .error f => .error f
    | .ok vm2 =>
      .ok { vm2 with
        maxObjects := if vm2.numObjects = 0 then INIT_OBJ_NUM_MAX else wrapInt (vm2.numObjects * 2) }

/-- `newObject`: returns the address of the new cell. -/
def newObject (vm : VM) (type : ObjectType) : Except Fault (Nat × VM) :=
  match (if vm.numObjects = vm.maxObjects then gc vm else .ok vm) with
  | .error f => .error f
  | .ok vm1 =>
    let object : Object :=
      { type := type, marked := false, next := vm1.firstObject,
        value := 0, head := none, tail := none }
    .ok (vm1.heap.length,
      { vm1 with heap := vm1.heap ++ [some object], firstObject := some vm1.heap.length,
                 numObjects := vm1.numObjects + 1 })

/-- `pushInt` -/
def pushInt (vm : VM) (intValue : Int) : Outcome Unit :=
  match newObject vm .OBJ_INT with
  | .error f => .fail f vm
  | .ok (a, vm1) =>
    push { vm1 with heap := hupdate vm1.heap a (fun o => { o with value := intValue }) }
      (some a)

/-- `pushPair` -/
def pushPair (vm : VM) : Outcome Ptr :=
  match newObject vm .OBJ_PAIR with
  | .error f => .fail f vm
  | .ok (a, vm1) =>
    match pop vm1 with
    | .fail f s => .fail f s
    | .ok t vm2 =>
      let vm3 := { vm2 with heap := hupdate vm2.heap a (fun o => { o with tail := t }) }
      match pop vm3 with
      | .fail f s => .fail f s
      | .ok hd vm4 =>
        let vm5 := { vm4 with heap := hupdate vm4.heap a (fun o => { o with head := hd }) }
        match push vm5 (some a) with
        | .fail f s => .fail f s
        | .ok _ vm6 => .ok (some a) vm6

/-! ## Vocabulary of the claims -/

/-- The cells met by following `next` from `p`, for at most `n` steps. -/
def chainFrom : Nat → Heap → Ptr → List Nat
  | 0, _, _ => []
  | _ + 1, _, none => []
  | n + 1, h, some a =>
    match hread h a with
    | none => []
    | some o => a :: chainFrom n h o.next

/-- The registry: the list that starts at `firstObject` and is linked by
`next`, in link order. -/
def registry (vm : VM) : List Nat :=
  chainFrom vm.heap.length vm.heap vm.firstObject

/-- `l` lists the live cells linked by `next` from `p` up to `NULL`. -/
def IsChain (h : Heap) : Ptr → List Nat → Prop
  | p, [] => p = none
  | p, a :: l => p = some a ∧ ∃ o ∈ hread h a, IsChain h o.next l

/-- `IsChain` can be checked by running down the list. -/
instance IsChain.dec (h : Heap) : (p : Ptr) → (l : List Nat) → Decidable (IsChain h p l)
  | p, [] => inferInstanceAs (Decidable (p = none))
  | p, a :: l =>
    have := fun (o : Object) => IsChain.dec h o.next l
    inferInstanceAs (Decidable (p = some a ∧ ∃ o ∈ hread h a, IsChain h o.next l))

/-- `y` is the head or the tail of the Pair at `x`. -/
def Edge (h : Heap) (x y : Nat) : Prop :=
  ∃ o ∈ hread h x, o.type = .OBJ_PAIR ∧ (o.head = some y ∨ o.tail = some y)

/-- Reachable from one of `roots` through zero or more Pair edges. -/
inductive Reach (h : Heap) (roots : List Ptr) : Nat → Prop
  | root {x : Nat} : some x ∈ roots → Reach h roots x
  | step {x y : Nat} : Reach h roots x → Edge h x y → Reach h roots y

/-- Reachable from the stack of `vm`. -/
def Live (vm : VM) (x : Nat) : Prop := Reach vm.heap vm.stack x

/-- `p` is a non-null pointer to a cell of `reg`. -/
def PtrIn (reg : List Nat) (p : Ptr) : Prop := ∃ a ∈ p, a ∈ reg

/-- The head and tail of every Pair of `reg` point into `reg`. -/
def Closed (reg : List Nat) (h : Heap) : Prop :=
  ∀ a ∈ reg, ∀ o ∈ hread h a, o.type = .OBJ_PAIR → PtrIn reg o.head ∧ PtrIn reg o.tail

/-- A valid VM state: the registry is a null-terminated list of live cells, and
the stack entries and the fields of registered Pairs point at registered
objects. -/
def WF (vm : VM) : Prop :=
  IsChain vm.heap vm.firstObject (registry vm) ∧
  (∀ p ∈ vm.stack, PtrIn (registry vm) p) ∧
  Closed (registry vm) vm.heap

instance WF.dec (vm : VM) : Decidable (WF vm) := by
  unfold WF Closed PtrIn; infer_instance

/-- No registered object is marked. -/
def NoMarks (vm : VM) : Prop :=
  ∀ a ∈ registry vm, ∀ o ∈ hread vm.heap a, o.marked = false

instance NoMarks.dec (vm : VM) : Decidable (NoMarks vm) := by
  unfold NoMarks; infer_instance

/-- The cell at `a` is live and marked. -/
def IsMarked (h : Heap) (a : Nat) : Prop := ∃ o ∈ hread h a, o.marked = true

/-- A heap with every mark cleared: what `mark` leaves alone. -/
def shape (h : Heap) : Heap := h.map (Option.map fun o => { o with marked := false })

/-- What a call of `mark` does, as a relation between heaps. -/
inductive Marks : Heap → Ptr → Heap → Prop
  | seen {h : Heap} {a : Nat} {o : Object} :
      hread h a = some o → o.marked = true → Marks h (some a) h
  | leaf {h : Heap} {a : Nat} {o : Object} :
      hread h a = some o → o.marked = false → o.type ≠ .OBJ_PAIR →
      Marks h (some a) (hwrite h a { o with marked := true })
  | pair {h h2 h3 : Heap} {a : Nat} {o : Object} :
      hread h a = some o → o.marked = false → o.type = .OBJ_PAIR →
      Marks (hwrite h a { o with marked := true }) o.head h2 →
      Marks h2 o.tail h3 → Marks h (some a) h3

/-- Marked cells of `reg` outside `G` have their Pair fields marked. -/
def MarkClosed (reg : List Nat) (G : Nat → Prop) (h : Heap) : Prop :=
  ∀ x ∈ reg, ¬ G x → IsMarked h x → ∀ y, Edge h x y → IsMarked h y

/-- The mark bit of the cell at `x`; clear for a dead cell. -/
def markBit (h : Heap) (x : Nat) : Bool :=
  match hread h x with
  | some o => o.marked
  | none => false

/-- What marking a list of roots in turn does, as a relation between heaps. -/
inductive MarksList : Heap → List Ptr → Heap → Prop
  | nil {h : Heap} : MarksList h [] h
  | cons {h h1 h2 : Heap} {p : Ptr} {ps : List Ptr} :
      Marks h p h1 → MarksList h1 ps h2 → MarksList h (p :: ps) h2

/-- What the loop of `sweep` has done when it returns `vm2`, having started in
`vm` with the cursor at `loc` and the list `l` still ahead of it. -/
structure SweepPost (vm : VM) (loc : Loc) (l : List Nat) (vm2 : VM) : Prop where
  stack_eq : vm2.stack = vm.stack
  max_eq : vm2.maxObjects = vm.maxObjects
  num_eq : vm2.numObjects = vm.numObjects - (l.countP fun x => !markBit vm.heap x)
  length_eq : vm2.heap.length = vm.heap.length
  first_eq : loc ≠ none → vm2.firstObject = vm.firstObject
  chain : ∃ p2, loadLoc vm2 loc = .ok p2 ∧ IsChain vm2.heap p2 (l.filter (markBit vm.heap))
  cursor : ∀ b o, loc = some b → hread vm.heap b = some o →
    ∃ o2, hread vm2.heap b = some o2 ∧ o2 = { o with next := o2.next }
  kept : ∀ x ∈ l, ∀ o, hread vm.heap x = some o → o.marked = true →
    ∃ o2, hread vm2.heap x = some o2 ∧ o2 = { o with marked := false, next := o2.next }
  freed : ∀ x ∈ l, markBit vm.heap x = false → hread vm2.heap x = none
  frame : ∀ x, x ∉ l → loc ≠ some x → hread vm2.heap x = hread vm.heap x

/-- What `gc` has done when it returns `vm2` from a valid state `vm` without
marks. -/
structure GcPost (vm vm2 : VM) : Prop where
  stack_eq : vm2.stack = vm.stack
  length_eq : vm2.heap.length = vm.heap.length
  max_eq : vm2.maxObjects =
    if vm2.numObjects = 0 then INIT_OBJ_NUM_MAX else wrapInt (vm2.numObjects * 2)
  chain : IsChain vm2.heap vm2.firstObject (registry vm2)
  reg_eq : ∃ keep : Nat → Bool, registry vm2 = (registry vm).filter keep ∧
    (∀ x ∈ registry vm, keep x = true ↔ Live vm x) ∧
    vm2.numObjects = vm.numObjects - ((registry vm).countP fun x => !keep x)
  kept : ∀ x ∈ registry vm2, ∀ o, hread vm.heap x = some o →
    ∃ o2, hread vm2.heap x = some o2 ∧ o2.marked = false ∧ o2.type = o.type ∧
      o2.value = o.value ∧ o2.head = o.head ∧ o2.tail = o.tail
  freed : ∀ x ∈ registry vm, x ∉ registry vm2 → hread vm2.heap x = none

/-- The state once the new cell `o` is linked in front of the registry of `vm1`
and the stack has become `stack`. -/
def linked (vm1 : VM) (o : Object) (stack : List Ptr) : VM :=
  { heap := vm1.heap ++ [some o], stack := stack, firstObject := some vm1.heap.length,
    numObjects := vm1.numObjects + 1, maxObjects := vm1.maxObjects }

/-- The state in which `newObject` allocates: after a collection when the
counter has reached the threshold, the state itself otherwise. -/
def beforeAlloc (vm vm1 : VM) : Prop :=
  (vm.numObjects = vm.maxObjects ∧ gc vm = .ok vm1) ∨
  (vm.numObjects ≠ vm.maxObjects ∧ vm1 = vm)

/-- What every state a caller can bring about satisfies. -/
structure Inv (vm : VM) : Prop where
  wf : WF vm
  noMarks : NoMarks vm
  count : vm.numObjects = (registry vm).length
  stack_le : vm.stack.length ≤ STACK_MAX

/-- The cells whose mark a call of `mark` sets (`object->marked = 1`), in the
order in which it sets them. -/
def markLog : Nat → Heap → Ptr → List Nat
  | 0, _, _ => []
  | _ + 1, _, none => []
  | n + 1, h, some a =>
    match hread h a with
    | none => []
    | some o =>
      if o.marked then []
      else
        let h1 := hwrite h a { o with marked := true }
        if o.type = .OBJ_PAIR then
          match markFuel n h1 o.head with
          | .error _ => a :: markLog n h1 o.head
          | .ok h2 => a :: (markLog n h1 o.head ++ markLog n h2 o.tail)
        else [a]

/-- The assignments to `marked` that `mark h object` makes. -/
def markWrites (h : Heap) (object : Ptr) : List Nat :=
  markLog (unmarkedCount h + 1) h object

/-- The cell `x` lies on a cycle of Pair edges. -/
def OnCycle (h : Heap) (x : Nat) : Prop := Relation.TransGen (Edge h) x x

/-! ## Sample states -/

/-- The state after `pushInt 1; pushInt 2; pushPair; pushInt 7; pop`: a Pair of
two Ints on the stack and an Int that nothing refers to. -/
def sample : VM :=
  { heap := [some ⟨.OBJ_INT, false, none, 1, none, none⟩,
             some ⟨.OBJ_INT, false, some 0, 2, none, none⟩,
             some ⟨.OBJ_PAIR, false, some 1, 0, some 0, some 1⟩,
             some ⟨.OBJ_INT, false, some 2, 7, none, none⟩],
    stack := [some 2], firstObject := some 3, numObjects := 4, maxObjects := 8 }

/-- The state after `pushInt 1`. -/
def oneInt : VM :=
  { heap := [some ⟨.OBJ_INT, false, none, 1, none, none⟩],
    stack := [some 0], firstObject := some 0, numObjects := 1, maxObjects := 8 }

/-- The state after `pushInt 1; gc`. -/
def oneIntCollected : VM :=
  { heap := [some ⟨.OBJ_INT, false, none, 1, none, none⟩],
    stack := [some 0], firstObject := some 0, numObjects := 1, maxObjects := 2 }

/-- The state after `pushInt 1; pushInt 2`. -/
def twoInts : VM :=
  { heap := [some ⟨.OBJ_INT, false, none, 1, none, none⟩,
             some ⟨.OBJ_INT, false, some 0, 2, none, none⟩],
    stack := [some 0, some 1], firstObject := some 1, numObjects := 2, maxObjects := 8 }

/-- The state after `pushInt 1; gc; pushInt 2`: the counter has reached the
threshold, so the next allocation collects first. -/
def twoIntsFull : VM :=
  { heap := [some ⟨.OBJ_INT, false, none, 1, none, none⟩,
             some ⟨.OBJ_INT, false, some 0, 2, none, none⟩],
    stack := [some 0, some 1], firstObject := some 1, numObjects := 2, maxObjects := 2 }

/-- One Int object and a stack filled to capacity with references to it: the
state after `pushInt 1`, `pop` and 256 calls of `push` with the popped
reference. -/
def fullStack : VM :=
  { heap := [some ⟨.OBJ_INT, false, none, 1, none, none⟩],
    stack := List.replicate 256 (some 0), firstObject := some 0, numObjects := 1,
    maxObjects := 8 }

/-- A state with cycles: the Pair on the stack is its own tail, two unreferenced
Pairs refer to each other, and one unreferenced Pair refers to itself. -/
def cyclic : VM :=
  { heap := [some ⟨.OBJ_INT, false, none, 1, none, none⟩,
             some ⟨.OBJ_PAIR, false, some 0, 0, some 0, some 1⟩,
             some ⟨.OBJ_PAIR, false, some 1, 0, some 3, some 3⟩,
             some ⟨.OBJ_PAIR, false, some 2, 0, some 2, some 2⟩,
             some ⟨.OBJ_PAIR, false, some 3, 0, some 4, some 4⟩],
    stack := [some 1], firstObject := some 4, numObjects := 5, maxObjects := 8 }

/-- The state `cyclic` with a mark left on the unreferenced Pair that refers to
itself. -/
def cyclicMarked : VM :=
  { heap := [some ⟨.OBJ_INT, false, none, 1, none, none⟩,
             some ⟨.OBJ_PAIR, false, some 0, 0, some 0, some 1⟩,
             some ⟨.OBJ_PAIR, false, some 1, 0, some 3, some 3⟩,
             some ⟨.OBJ_PAIR, false, some 2, 0, some 2, some 2⟩,
             some ⟨.OBJ_PAIR, true, some 3, 0, some 4, some 4⟩],
    stack := [some 1], firstObject := some 4, numObjects := 5, maxObjects := 8 }

/-- The state `sample` after its mark phase: the Pair on the stack and its two
Ints are marked, the unreferenced Int is not. -/
def sampleMarked : VM :=
  { heap := [some ⟨.OBJ_INT, true, none, 1, none, none⟩,
             some ⟨.OBJ_INT, true, some 0, 2, none, none⟩,
             some ⟨.OBJ_PAIR, true, some 1, 0, some 0, some 1⟩,
             some ⟨.OBJ_INT, false, some 2, 7, none, none⟩],
    stack := [some 2], firstObject := some 3, numObjects := 4, maxObjects := 8 }

/-- The state with one Int object per value of `vs`, allocated in that order
and all on the stack, and with threshold `m`. -/
def intsState (vs : List Int) (m : Int) : VM :=
  { heap := vs.enum.map fun iv =>
      some ⟨.OBJ_INT, false, if iv.1 = 0 then none else some (iv.1 - 1), iv.2, none, none⟩,
    stack := (List.range vs.length).map some,
    firstObject := if vs.length = 0 then none else some (vs.length - 1),
    numObjects := vs.length, maxObjects := m }

/-- The operations a caller can issue. -/
inductive Op where
  | pushInt (intValue : Int)
  | pushPair
  | pop
  | gc
deriving DecidableEq

/-- One operation; `none` when the process stops. -/
def step (vm : VM) : Op → Option VM
  | .pushInt v =>
    match pushInt vm v with
    | .ok _ vm1 => some vm1
    | .fail _ _ => none
  | .pushPair =>
    match pushPair vm with
    | .ok _ vm1 => some vm1
    | .fail _ _ => none
  | .pop =>
    match pop vm with
    | .ok _ vm1 => some vm1
    | .fail _ _ => none
  | .gc =>
    match gc vm with
    | .ok vm1 => some vm1
    | .error _ => none

/-- A sequence of operations, left to right. -/
def run (vm : VM) : List Op → Option VM
  | [] => some vm
  | op :: ops =>
    match step vm op with
    | some vm1 => run vm1 ops
    | none => none

/-- The states a caller can bring about from `newVM`. -/
def Reachable (vm : VM) : Prop := ∃ ops, run newVM ops = some vm

/-- A sequence of operations, each issued while the counter is below
`COUNT_LIMIT`; `none` also when the counter has reached it. -/
def runBelow (vm : VM) : List Op → Option VM
  | [] => some vm
  | op :: ops =>
    if vm.numObjects < COUNT_LIMIT then
      match step vm op with
      | some vm1 => runBelow vm1 ops
      | none => none
    else none

/-- The states a caller can bring about from `newVM` while the counter stays
below `COUNT_LIMIT`. -/
def ReachableBelow (vm : VM) : Prop := ∃ ops, runBelow newVM ops = some vm

/-- The threshold is at least 2 and the counter has not passed it. -/
def Thr (vm : VM) : Prop := 2 ≤ vm.maxObjects ∧ vm.numObjects ≤ vm.maxObjects

/-- Every registered object is reachable from the stack. -/
def AllLive (vm : VM) : Prop := ∀ x ∈ registry vm, Live vm x

/-- The threshold with which `newObject` allocates when it is called with
counter `n` and threshold `m`: the one `gc` computes when `n = m`, `m` itself
otherwise. -/
def allocMax (n m : Int) : Int :=
  if n = m then (if n = 0 then INIT_OBJ_NUM_MAX else wrapInt (n * 2)) else m

/-- The calls that build a chain of `n` Pairs whose objects all stay reachable
from the one stack entry: `pushInt 0`, then `n` times `pushInt 0; pushPair`. -/
def chainOps : Nat → List Op
  | 0 => [.pushInt 0]
  | n + 1 => chainOps n ++ [.pushInt 0, .pushPair]

end GC

namespace GC

/-! ## Memory -/

theorem hread_eq (h : Heap) (a : Nat) : hread h a = (h[a]?).getD none := by
  simp [hread, List.getD_eq_getElem?_getD]

theorem hread_lt {h : Heap} {a : Nat} {o : Object} (hr : hread h a = some o) :
    a < h.length := by
  by_contra hge
  rw [hread_eq, List.getElem?_eq_none (by omega)] at hr
  simp at hr

theorem hread_hwrite_same {h : Heap} {a : Nat} (o : Object) (hlt : a < h.length) :
    hread (hwrite h a o) a = some o := by
  simp [hread_eq, hwrite, List.getElem?_set, hlt]

theorem hread_hwrite_ne {h : Heap} {a b : Nat} (o : Object) (hne : b ≠ a) :
    hread (hwrite h a o) b = hread h b := by
  simp [hread_eq, hwrite, List.getElem?_set, Ne.symm hne]

theorem hread_hfree_same (h : Heap) (a : Nat) : hread (hfree h a) a = none := by
  simp only [hread_eq, hfree, List.getElem?_set]
  by_cases hlt : a < h.length <;> simp [hlt]

theorem hread_hfree_ne {h : Heap} {a b : Nat} (hne : b ≠ a) :
    hread (hfree h a) b = hread h b := by
  simp [hread_eq, hfree, List.getElem?_set, Ne.symm hne]

theorem length_hwrite (h : Heap) (a : Nat) (o : Object) :
    (hwrite h a o).length = h.length := by
  simp [hwrite]

theorem length_hfree (h : Heap) (a : Nat) : (hfree h a).length = h.length := by
  simp [hfree]

theorem length_hupdate (h : Heap) (a : Nat) (f : Object → Object) :
    (hupdate h a f).length = h.length := by
  unfold hupdate
  split <;> simp [hwrite]

theorem hread_hupdate_same {h : Heap} {a : Nat} {o : Object} (f : Object → Object)
    (hr : hread h a = some o) : hread (hupdate h a f) a = some (f o) := by
  unfold hupdate
  rw [hr]
  exact hread_hwrite_same _ (hread_lt hr)

theorem hread_hupdate_ne {h : Heap} {a b : Nat} (f : Object → Object) (hne : b ≠ a) :
    hread (hupdate h a f) b = hread h b := by
  unfold hupdate
  split
  · exact hread_hwrite_ne _ hne
  · rfl

theorem hread_append_lt {h : Heap} {a : Nat} (l : Heap) (hlt : a < h.length) :
    hread (h ++ l) a = hread h a := by
  simp [hread_eq, List.getElem?_append_left hlt]

theorem hread_append_some {h : Heap} {a : Nat} {o : Object} (l : Heap)
    (hr : hread h a = some o) : hread (h ++ l) a = some o := by
  rw [hread_append_lt l (hread_lt hr), hr]

theorem hread_append_new (h : Heap) (o : Object) :
    hread (h ++ [some o]) h.length = some o := by
  simp [hread_eq]

/-! ## The registry list -/

theorem isChain_nil {h : Heap} {p : Ptr} : IsChain h p [] ↔ p = none := by
  simp [IsChain]

theorem isChain_cons {h : Heap} {p : Ptr} {a : Nat} {l : List Nat} :
    IsChain h p (a :: l) ↔ p = some a ∧ ∃ o, hread h a = some o ∧ IsChain h o.next l := by
  simp [IsChain]

theorem IsChain.cells_live {h : Heap} {p : Ptr} {l : List Nat} (hc : IsChain h p l) :
    ∀ x ∈ l, ∃ o, hread h x = some o := by
  induction l generalizing p with
  | nil => simp
  | cons a l ih =>
    obtain ⟨-, o, ho, hrest⟩ := isChain_cons.1 hc
    intro x hx
    rcases List.mem_cons.1 hx with rfl | hx
    · exact ⟨o, ho⟩
    · exact ih hrest x hx

theorem IsChain.unique {h : Heap} {p : Ptr} {l l2 : List Nat} (hc : IsChain h p l)
    (hc2 : IsChain h p l2) : l = l2 := by
  induction l generalizing p l2 with
  | nil =>
    cases l2 with
    | nil => rfl
    | cons b l2 =>
      have h1 := isChain_nil.1 hc
      have h2 := (isChain_cons.1 hc2).1
      rw [h1] at h2
      cases h2
  | cons a l ih =>
    obtain ⟨hp, o, ho, hrest⟩ := isChain_cons.1 hc
    cases l2 with
    | nil =>
      have h2 := isChain_nil.1 hc2
      rw [hp] at h2
      cases h2
    | cons b l2 =>
      obtain ⟨hp2, o2, ho2, hrest2⟩ := isChain_cons.1 hc2
      rw [hp] at hp2
      cases hp2
      rw [ho] at ho2
      cases ho2
      rw [ih hrest hrest2]

theorem IsChain.drop {h : Heap} {p : Ptr} {l1 : List Nat} {a : Nat} {l2 : List Nat}
    (hc : IsChain h p (l1 ++ a :: l2)) : IsChain h (some a) (a :: l2) := by
  induction l1 generalizing p with
  | nil =>
    obtain ⟨-, o, ho, hrest⟩ := isChain_cons.1 hc
    exact isChain_cons.2 ⟨rfl, o, ho, hrest⟩
  | cons b l1 ih =>
    obtain ⟨-, o, -, hrest⟩ := isChain_cons.1 hc
    exact ih hrest

theorem IsChain.head_not_mem {h : Heap} {p : Ptr} {a : Nat} {l : List Nat}
    (hc : IsChain h p (a :: l)) : a ∉ l := by
  intro hmem
  obtain ⟨l1, l2, rfl⟩ := List.append_of_mem hmem
  obtain ⟨-, o, ho, hrest⟩ := isChain_cons.1 hc
  have h1 : IsChain h (some a) (a :: (l1 ++ a :: l2)) := isChain_cons.2 ⟨rfl, o, ho, hrest⟩
  have h2 : IsChain h (some a) (a :: l2) := hrest.drop
  have := congrArg List.length (h1.unique h2)
  simp at this
  omega

theorem IsChain.nodup {h : Heap} {p : Ptr} {l : List Nat} (hc : IsChain h p l) :
    l.Nodup := by
  induction l generalizing p with
  | nil => exact List.nodup_nil
  | cons a l ih =>
    obtain ⟨-, o, -, hrest⟩ := isChain_cons.1 hc
    exact List.nodup_cons.2 ⟨hc.head_not_mem, ih hrest⟩

theorem IsChain.length_le {h : Heap} {p : Ptr} {l : List Nat} (hc : IsChain h p l) :
    l.length ≤ h.length := by
  have hsub : l ⊆ List.range h.length := by
    intro x hx
    obtain ⟨o, ho⟩ := hc.cells_live x hx
    exact List.mem_range.2 (hread_lt ho)
  simpa using (List.subperm_of_subset hc.nodup hsub).length_le

theorem IsChain.chainFrom_eq {h : Heap} {p : Ptr} {l : List Nat} (hc : IsChain h p l)
    {n : Nat} (hn : l.length ≤ n) : chainFrom n h p = l := by
  induction l generalizing p n with
  | nil =>
    rw [isChain_nil.1 hc]
    cases n <;> rfl
  | cons a l ih =>
    obtain ⟨hp, o, ho, hrest⟩ := isChain_cons.1 hc
    cases n with
    | zero => simp at hn
    | succ n =>
      rw [hp]
      simp only [chainFrom, ho]
      rw [ih hrest (by simpa using hn)]

theorem IsChain.registry_eq {vm : VM} {l : List Nat}
    (hc : IsChain vm.heap vm.firstObject l) : registry vm = l :=
  hc.chainFrom_eq hc.length_le

/-- A chain only depends on the cells it runs through and on their `next`. -/
theorem IsChain.congr {h h2 : Heap} {p : Ptr} {l : List Nat} (hc : IsChain h p l)
    (hl : ∀ x ∈ l, ∀ o, hread h x = some o →
      ∃ o2, hread h2 x = some o2 ∧ o2.next = o.next) : IsChain h2 p l := by
  induction l generalizing p with
  | nil => exact isChain_nil.2 (isChain_nil.1 hc)
  | cons a l ih =>
    obtain ⟨hp, o, ho, hrest⟩ := isChain_cons.1 hc
    obtain ⟨o2, ho2, hnext⟩ := hl a (List.mem_cons_self a l) o ho
    refine isChain_cons.2 ⟨hp, o2, ho2, ?_⟩
    rw [hnext]
    exact ih hrest (fun x hx => hl x (List.mem_cons_of_mem a hx))

/-! ## Marking only touches marks -/

theorem hread_shape (h : Heap) (x : Nat) :
    hread (shape h) x = (hread h x).map fun o => { o with marked := false } := by
  simp only [hread_eq, shape, List.getElem?_map]
  cases h[x]? <;> simp

theorem length_shape (h : Heap) : (shape h).length = h.length := by
  simp [shape]

theorem shape_hwrite {h : Heap} {a : Nat} {o : Object} (b : Bool)
    (hr : hread h a = some o) : shape (hwrite h a { o with marked := b }) = shape h := by
  apply List.ext_getElem?
  intro n
  have h1 := hread_shape (hwrite h a { o with marked := b }) n
  have h2 := hread_shape h n
  by_cases hn : n = a
  · subst hn
    rw [hread_hwrite_same _ (hread_lt hr)] at h1
    rw [hr] at h2
    have hlt := hread_lt hr
    rw [hread_eq] at h1 h2
    have e1 : n < (shape (hwrite h n { o with marked := b })).length := by
      rw [length_shape, length_hwrite]; exact hlt
    have e2 : n < (shape h).length := by rw [length_shape]; exact hlt
    rw [List.getElem?_eq_getElem e1] at h1 ⊢
    rw [List.getElem?_eq_getElem e2] at h2 ⊢
    simp only [Option.getD_some, Option.map_some'] at h1 h2
    rw [h1, h2]
  · rw [hread_hwrite_ne _ hn] at h1
    rw [← h2] at h1
    rw [hread_eq, hread_eq] at h1
    by_cases hlt : n < h.length
    · have e1 : n < (shape (hwrite h a { o with marked := b })).length := by
        rw [length_shape, length_hwrite]; exact hlt
      have e2 : n < (shape h).length := by rw [length_shape]; exact hlt
      rw [List.getElem?_eq_getElem e1] at h1 ⊢
      rw [List.getElem?_eq_getElem e2] at h1 ⊢
      simp only [Option.getD_some] at h1
      rw [h1]
    · rw [List.getElem?_eq_none, List.getElem?_eq_none]
      · rw [length_shape]; omega
      · rw [length_shape, length_hwrite]; omega

/-- Two heaps of the same shape have the same cells up to their marks. -/
theorem shape_read {h h2 : Heap} (hs : shape h2 = shape h) {x : Nat} {o : Object}
    (hr : hread h x = some o) :
    ∃ o2, hread h2 x = some o2 ∧ o2.type = o.type ∧ o2.next = o.next ∧
      o2.value = o.value ∧ o2.head = o.head ∧ o2.tail = o.tail := by
  have h1 := hread_shape h2 x
  rw [hs, hread_shape, hr] at h1
  cases hr2 : hread h2 x with
  | none => rw [hr2] at h1; simp at h1
  | some o2 =>
    rw [hr2] at h1
    simp only [Option.map_some', Option.some.injEq, Object.mk.injEq] at h1
    obtain ⟨e1, -, e3, e4, e5, e6⟩ := h1
    exact ⟨o2, rfl, e1.symm, e3.symm, e4.symm, e5.symm, e6.symm⟩

theorem shape_length {h h2 : Heap} (hs : shape h2 = shape h) : h2.length = h.length := by
  have := congrArg List.length hs
  simpa [length_shape] using this

theorem shape_read_none {h h2 : Heap} (hs : shape h2 = shape h) {x : Nat}
    (hr : hread h x = none) : hread h2 x = none := by
  cases hr2 : hread h2 x with
  | none => rfl
  | some o2 =>
    obtain ⟨o, ho, -⟩ := shape_read hs.symm hr2
    rw [hr] at ho
    cases ho

theorem Edge.edge_of_shape {h h2 : Heap} (hs : shape h2 = shape h) {x y : Nat}
    (he : Edge h x y) : Edge h2 x y := by
  obtain ⟨o, ho, ht, hy⟩ := he
  obtain ⟨o2, ho2, e1, -, -, e4, e5⟩ := shape_read hs ho
  exact ⟨o2, ho2, e1.trans ht, by rw [e4, e5]; exact hy⟩

theorem Reach.reach_of_shape {h h2 : Heap} (hs : shape h2 = shape h) {roots : List Ptr} {x : Nat}
    (hr : Reach h roots x) : Reach h2 roots x := by
  induction hr with
  | root hx => exact Reach.root hx
  | step _ he ih => exact Reach.step ih (he.edge_of_shape hs)

theorem Reach.mono_roots {h : Heap} {roots roots2 : List Ptr} (hsub : ∀ p ∈ roots, p ∈ roots2)
    {x : Nat} (hr : Reach h roots x) : Reach h roots2 x := by
  induction hr with
  | root hx => exact Reach.root (hsub _ hx)
  | step _ he ih => exact Reach.step ih he

theorem Closed.closed_of_shape {h h2 : Heap} (hs : shape h2 = shape h) {reg : List Nat}
    (hc : Closed reg h) : Closed reg h2 := by
  intro a ha o2 ho2 ht
  obtain ⟨o, ho, e1, -, -, e4, e5⟩ := shape_read hs.symm ho2
  have := hc a ha o ho (e1.trans ht)
  rw [e4, e5] at this
  exact this

theorem IsChain.chain_of_shape {h h2 : Heap} (hs : shape h2 = shape h) {p : Ptr} {l : List Nat}
    (hc : IsChain h p l) : IsChain h2 p l :=
  hc.congr fun _ _ _ ho =>
    let ⟨o2, ho2, _, e2, _⟩ := shape_read hs ho
    ⟨o2, ho2, e2⟩

/-! ## The mark phase -/

theorem markFuel_marks {n : Nat} {h h2 : Heap} {p : Ptr}
    (hm : markFuel n h p = .ok h2) : Marks h p h2 := by
  induction n generalizing h h2 p with
  | zero => simp [markFuel] at hm
  | succ n ih =>
    cases p with
    | none => simp [markFuel] at hm
    | some a =>
      simp only [markFuel] at hm
      cases ho : hread h a with
      | none => rw [ho] at hm; simp at hm
      | some o =>
        rw [ho] at hm
        simp only at hm
        by_cases hmk : o.marked = true
        · rw [if_pos hmk] at hm
          cases hm
          exact Marks.seen ho hmk
        · rw [if_neg hmk] at hm
          have hmk2 : o.marked = false := by simpa using hmk
          by_cases ht : o.type = .OBJ_PAIR
          · rw [if_pos ht] at hm
            cases h1 : markFuel n (hwrite h a { o with marked := true }) o.head with
            | error f => rw [h1] at hm; simp at hm
            | ok hh =>
              rw [h1] at hm
              exact Marks.pair ho hmk2 ht (ih h1) (ih hm)
          · rw [if_neg ht] at hm
            cases hm
            exact Marks.leaf ho hmk2 ht

theorem Marks.shape_eq {h h2 : Heap} {p : Ptr} (hm : Marks h p h2) : shape h2 = shape h := by
  induction hm with
  | seen _ _ => rfl
  | leaf ho _ _ => exact shape_hwrite true ho
  | pair ho _ _ _ _ ih1 ih2 => rw [ih2, ih1]; exact shape_hwrite true ho

theorem IsMarked.write_mark {h : Heap} {a x : Nat} {o : Object} (ho : hread h a = some o)
    (hx : IsMarked h x) : IsMarked (hwrite h a { o with marked := true }) x := by
  by_cases hxa : x = a
  · subst hxa
    exact ⟨_, hread_hwrite_same _ (hread_lt ho), rfl⟩
  · obtain ⟨o2, ho2, hm2⟩ := hx
    exact ⟨o2, by rw [Option.mem_def, hread_hwrite_ne _ hxa]; exact ho2, hm2⟩

theorem Marks.mono_marks {h h2 : Heap} {p : Ptr} (hm : Marks h p h2) {x : Nat}
    (hx : IsMarked h x) : IsMarked h2 x := by
  induction hm with
  | seen _ _ => exact hx
  | leaf ho _ _ => exact hx.write_mark ho
  | pair ho _ _ _ _ ih1 ih2 => exact ih2 (ih1 (hx.write_mark ho))

theorem Marks.root_marked {h h2 : Heap} {p : Ptr} (hm : Marks h p h2) :
    ∃ a, p = some a ∧ IsMarked h2 a := by
  cases hm with
  | seen ho hmk => exact ⟨_, rfl, _, ho, hmk⟩
  | leaf ho _ _ => exact ⟨_, rfl, _, hread_hwrite_same _ (hread_lt ho), rfl⟩
  | pair ho _ _ m1 m2 =>
    refine ⟨_, rfl, ?_⟩
    exact m2.mono_marks (m1.mono_marks ⟨_, hread_hwrite_same _ (hread_lt ho), rfl⟩)

/-- Whatever `mark p` newly marks is reachable from `p`. -/
theorem Marks.sound {h h2 : Heap} {p : Ptr} (hm : Marks h p h2) {x : Nat}
    (hx : IsMarked h2 x) : IsMarked h x ∨ Reach h [p] x := by
  induction hm generalizing x with
  | seen _ _ => exact Or.inl hx
  | @leaf h a o ho _ _ =>
    by_cases hxa : x = a
    · subst hxa
      exact Or.inr (Reach.root (List.mem_singleton.2 rfl))
    · obtain ⟨o2, ho2, hm2⟩ := hx
      rw [Option.mem_def, hread_hwrite_ne _ hxa] at ho2
      exact Or.inl ⟨o2, ho2, hm2⟩
  | @pair h h2 h3 a o ho _ ht m1 _ ih1 ih2 =>
    have hs1 : shape (hwrite h a { o with marked := true }) = shape h := shape_hwrite true ho
    have hs2 : shape h2 = shape h := by rw [m1.shape_eq, hs1]
    have hroot : Reach h [some a] a := Reach.root (List.mem_singleton.2 rfl)
    have lift : ∀ {q : Ptr} {g : Heap} {z : Nat}, shape g = shape h →
        (o.head = q ∨ o.tail = q) → Reach g [q] z → Reach h [some a] z := by
      intro q g z hg hq hr
      have hr2 : Reach h [q] z := hr.reach_of_shape hg.symm
      clear hr
      induction hr2 with
      | root hy =>
        rw [List.mem_singleton] at hy
        exact Reach.step hroot ⟨o, ho, ht, by rw [← hy] at hq; exact hq⟩
      | step _ he ih => exact Reach.step ih he
    rcases ih2 hx with h3x | h3x
    · rcases ih1 h3x with h1x | h1x
      · by_cases hxa : x = a
        · subst hxa
          exact Or.inr hroot
        · obtain ⟨o2, ho2, hm2⟩ := h1x
          rw [Option.mem_def, hread_hwrite_ne _ hxa] at ho2
          exact Or.inl ⟨o2, ho2, hm2⟩
      · exact Or.inr (lift hs1 (Or.inl rfl) h1x)
    · exact Or.inr (lift hs2 (Or.inr rfl) h3x)

theorem IsMarked.of_write {h : Heap} {a x : Nat} {o : Object} {b : Bool}
    (hx : IsMarked (hwrite h a { o with marked := b }) x) (hxa : x ≠ a) : IsMarked h x := by
  obtain ⟨o2, ho2, hm2⟩ := hx
  rw [Option.mem_def, hread_hwrite_ne _ hxa] at ho2
  exact ⟨o2, ho2, hm2⟩

theorem Marks.markClosed {h h2 : Heap} {p : Ptr} (hm : Marks h p h2) {reg : List Nat}
    {G : Nat → Prop} (hc : MarkClosed reg G h) : MarkClosed reg G h2 := by
  induction hm generalizing G with
  | seen _ _ => exact hc
  | @leaf h a o ho _ ht =>
    intro x hx hG hmx y he
    have hs : shape (hwrite h a { o with marked := true }) = shape h := shape_hwrite true ho
    by_cases hxa : x = a
    · subst hxa
      obtain ⟨o2, ho2, ht2, -⟩ := he
      rw [Option.mem_def, hread_hwrite_same _ (hread_lt ho)] at ho2
      cases ho2
      exact absurd ht2 ht
    · exact (hc x hx hG (hmx.of_write hxa) y (he.edge_of_shape hs.symm)).write_mark ho
  | @pair h h2 h3 a o ho _ ht m1 m2 ih1 ih2 =>
    have hs1 : shape (hwrite h a { o with marked := true }) = shape h := shape_hwrite true ho
    have hs3 : shape h3 = shape h := by rw [m2.shape_eq, m1.shape_eq, hs1]
    have hc1 : MarkClosed reg (fun x => G x ∨ x = a) (hwrite h a { o with marked := true }) := by
      intro x hx hG hmx y he
      have hxa : x ≠ a := fun e => hG (Or.inr e)
      exact (hc x hx (fun g => hG (Or.inl g)) (hmx.of_write hxa) y
        (he.edge_of_shape hs1.symm)).write_mark ho
    have hc3 := ih2 (ih1 hc1)
    intro x hx hG hmx y he
    by_cases hxa : x = a
    · subst hxa
      obtain ⟨o2, ho2, -, hy⟩ := he.edge_of_shape hs3.symm
      rw [Option.mem_def, ho] at ho2
      cases ho2
      obtain ⟨a1, e1, hm1⟩ := m1.root_marked
      obtain ⟨a2, e2, hm2⟩ := m2.root_marked
      rcases hy with hy | hy
      · rw [hy] at e1
        cases e1
        exact m2.mono_marks hm1
      · rw [hy] at e2
        cases e2
        exact hm2
    · exact hc3 x hx (fun g => g.elim hG hxa) hmx y he

theorem hread_cons_zero (c : Option Object) (h : Heap) : hread (c :: h) 0 = c := by
  simp [hread]

theorem hread_cons_succ (c : Option Object) (h : Heap) (a : Nat) :
    hread (c :: h) (a + 1) = hread h a := by
  simp [hread]

theorem unmarkedCount_hwrite {h : Heap} {a : Nat} {o : Object} (ho : hread h a = some o)
    (hm : o.marked = false) :
    unmarkedCount (hwrite h a { o with marked := true }) + 1 = unmarkedCount h := by
  induction h generalizing a with
  | nil => simp [hread] at ho
  | cons c h ih =>
    cases a with
    | zero =>
      rw [hread_cons_zero] at ho
      subst ho
      simp [unmarkedCount, hwrite, List.countP_cons, hm]
    | succ a =>
      rw [hread_cons_succ] at ho
      have := ih ho
      simp only [unmarkedCount, hwrite, List.set_cons_succ, List.countP_cons] at this ⊢
      omega

theorem Marks.unmarked_le {h h2 : Heap} {p : Ptr} (hm : Marks h p h2) :
    unmarkedCount h2 ≤ unmarkedCount h := by
  induction hm with
  | seen _ _ => exact le_rfl
  | leaf ho hmk _ => have := unmarkedCount_hwrite ho hmk; omega
  | pair ho hmk _ _ _ ih1 ih2 => have := unmarkedCount_hwrite ho hmk; omega

/-- With more fuel than clear cells, `mark` on a closed heap returns. -/
theorem markFuel_ok {reg : List Nat} {n : Nat} {h : Heap} {p : Ptr}
    (hn : unmarkedCount h < n) (hc : Closed reg h)
    (hl : ∀ a ∈ reg, ∃ o, hread h a = some o) (hp : PtrIn reg p) :
    ∃ h2, markFuel n h p = .ok h2 := by
  induction n generalizing h p with
  | zero => omega
  | succ n ih =>
    obtain ⟨a, rfl, ha⟩ := hp
    obtain ⟨o, ho⟩ := hl a ha
    simp only [markFuel, ho]
    by_cases hmk : o.marked = true
    · exact ⟨h, by rw [if_pos hmk]⟩
    · rw [if_neg hmk]
      have hmk2 : o.marked = false := by simpa using hmk
      have hcnt := unmarkedCount_hwrite ho hmk2
      have hs1 : shape (hwrite h a { o with marked := true }) = shape h := shape_hwrite true ho
      have live_of : ∀ {g : Heap}, shape g = shape h → ∀ b ∈ reg, ∃ ob, hread g b = some ob := by
        intro g hg b hb
        obtain ⟨ob, hob⟩ := hl b hb
        obtain ⟨ob2, hob2, -⟩ := shape_read hg hob
        exact ⟨ob2, hob2⟩
      by_cases ht : o.type = .OBJ_PAIR
      · rw [if_pos ht]
        obtain ⟨hhd, htl⟩ := hc a ha o ho ht
        obtain ⟨h2, e2⟩ := ih (h := hwrite h a { o with marked := true }) (by omega)
          (hc.closed_of_shape hs1) (live_of hs1) hhd
        rw [e2]
        have m1 := markFuel_marks e2
        have hs2 : shape h2 = shape h := by rw [m1.shape_eq, hs1]
        have := m1.unmarked_le
        exact ih (by omega) (hc.closed_of_shape hs2) (live_of hs2) htl
      · rw [if_neg ht]
        exact ⟨_, rfl⟩

/-- The bound on the depth is never what stops `mark`: with more fuel than clear
cells the recursion ends by itself or at an invalid pointer. -/
theorem markFuel_fuel {n : Nat} {h : Heap} {p : Ptr} (hn : unmarkedCount h < n) :
    markFuel n h p ≠ .error .outOfFuel := by
  induction n generalizing h p with
  | zero => omega
  | succ n ih =>
    cases p with
    | none => simp [markFuel]
    | some a =>
      simp only [markFuel]
      cases ho : hread h a with
      | none => simp
      | some o =>
        simp only
        by_cases hmk : o.marked = true
        · rw [if_pos hmk]
          simp
        · rw [if_neg hmk]
          have hmk2 : o.marked = false := by simpa using hmk
          have hcnt := unmarkedCount_hwrite ho hmk2
          by_cases ht : o.type = .OBJ_PAIR
          · rw [if_pos ht]
            cases e2 : markFuel n (hwrite h a { o with marked := true }) o.head with
            | error f =>
              simp only
              intro hf
              cases hf
              exact ih (by omega) e2
            | ok h2 =>
              simp only
              have := (markFuel_marks e2).unmarked_le
              exact ih (by omega)
          · rw [if_neg ht]
            simp

theorem mark_fuel (h : Heap) (p : Ptr) : mark h p ≠ .error .outOfFuel :=
  markFuel_fuel (Nat.lt_succ_self _)

theorem mark_ok {reg : List Nat} {h : Heap} {p : Ptr} (hc : Closed reg h)
    (hl : ∀ a ∈ reg, ∃ o, hread h a = some o) (hp : PtrIn reg p) :
    ∃ h2, mark h p = .ok h2 :=
  markFuel_ok (Nat.lt_succ_self _) hc hl hp

theorem markList_marks {roots : List Ptr} {h h2 : Heap}
    (hm : markList roots h = .ok h2) : MarksList h roots h2 := by
  induction roots generalizing h with
  | nil =>
    simp only [markList, Except.ok.injEq] at hm
    subst hm
    exact MarksList.nil
  | cons p ps ih =>
    simp only [markList] at hm
    cases h1 : mark h p with
    | error f => rw [h1] at hm; simp at hm
    | ok hh =>
      rw [h1] at hm
      exact MarksList.cons (markFuel_marks h1) (ih hm)

theorem MarksList.shape_list {roots : List Ptr} {h h2 : Heap} (hm : MarksList h roots h2) :
    shape h2 = shape h := by
  induction hm with
  | nil => rfl
  | cons m _ ih => rw [ih, m.shape_eq]

theorem MarksList.mono_list {roots : List Ptr} {h h2 : Heap} (hm : MarksList h roots h2)
    {x : Nat} (hx : IsMarked h x) : IsMarked h2 x := by
  induction hm with
  | nil => exact hx
  | cons m _ ih => exact ih (m.mono_marks hx)

theorem MarksList.roots_marked {roots : List Ptr} {h h2 : Heap} (hm : MarksList h roots h2) :
    ∀ p ∈ roots, ∃ a, p = some a ∧ IsMarked h2 a := by
  induction hm with
  | nil => simp
  | cons m ms ih =>
    intro q hq
    rcases List.mem_cons.1 hq with rfl | hq
    · obtain ⟨a, e, hma⟩ := m.root_marked
      exact ⟨a, e, ms.mono_list hma⟩
    · exact ih q hq

theorem MarksList.sound_list {roots : List Ptr} {h h2 : Heap} (hm : MarksList h roots h2)
    {x : Nat} (hx : IsMarked h2 x) : IsMarked h x ∨ Reach h roots x := by
  induction hm with
  | nil => exact Or.inl hx
  | @cons h h1 h2 p ps m _ ih =>
    rcases ih hx with h1x | h1x
    · rcases m.sound h1x with h0 | h0
      · exact Or.inl h0
      · exact Or.inr (h0.mono_roots (by simp))
    · exact Or.inr ((h1x.reach_of_shape m.shape_eq.symm).mono_roots
        (fun q hq => List.mem_cons_of_mem _ hq))

theorem MarksList.markClosed_list {roots : List Ptr} {h h2 : Heap} (hm : MarksList h roots h2)
    {reg : List Nat} {G : Nat → Prop} (hc : MarkClosed reg G h) : MarkClosed reg G h2 := by
  induction hm with
  | nil => exact hc
  | cons m _ ih => exact ih (m.markClosed hc)

theorem markList_ok {reg : List Nat} {roots : List Ptr} {h : Heap} (hc : Closed reg h)
    (hl : ∀ a ∈ reg, ∃ o, hread h a = some o) (hr : ∀ p ∈ roots, PtrIn reg p) :
    ∃ h2, markList roots h = .ok h2 := by
  induction roots generalizing h with
  | nil => exact ⟨h, rfl⟩
  | cons p ps ih =>
    obtain ⟨h1, e1⟩ := mark_ok hc hl (hr p (List.mem_cons_self p ps))
    simp only [markList, e1]
    have hs := (markFuel_marks e1).shape_eq
    refine ih (hc.closed_of_shape hs) ?_ (fun q hq => hr q (List.mem_cons_of_mem p hq))
    intro b hb
    obtain ⟨ob, hob⟩ := hl b hb
    obtain ⟨ob2, hob2, -⟩ := shape_read hs hob
    exact ⟨ob2, hob2⟩

/-- Everything reachable lies in the registry of a closed heap. -/
theorem Reach.mem_reg {reg : List Nat} {roots : List Ptr} {h : Heap} (hc : Closed reg h)
    (hr : ∀ p ∈ roots, PtrIn reg p) {x : Nat} (hx : Reach h roots x) : x ∈ reg := by
  induction hx with
  | root hroot =>
    obtain ⟨a, ha, hmem⟩ := hr _ hroot
    cases ha
    exact hmem
  | step _ he ih =>
    obtain ⟨o, ho, ht, hy⟩ := he
    obtain ⟨⟨b, hb, hbm⟩, ⟨c, hc2, hcm⟩⟩ := hc _ ih o ho ht
    rcases hy with hy | hy
    · rw [hy] at hb; cases hb; exact hbm
    · rw [hy] at hc2; cases hc2; exact hcm

/-- After marking the roots of a closed heap in which the marked cells of the
registry have marked fields, every reachable cell is marked. -/
theorem MarksList.complete {reg : List Nat} {roots : List Ptr} {h h2 : Heap}
    (hm : MarksList h roots h2) (hc : Closed reg h) (hr : ∀ p ∈ roots, PtrIn reg p)
    (hcl : MarkClosed reg (fun _ => False) h) {x : Nat} (hx : Reach h roots x) :
    IsMarked h2 x := by
  have hcl2 := hm.markClosed_list hcl
  induction hx with
  | root hroot =>
    obtain ⟨a, ha, hma⟩ := hm.roots_marked _ hroot
    cases ha
    exact hma
  | step hxr he ih =>
    exact hcl2 _ (hxr.mem_reg hc hr) (fun f => f) ih _ (he.edge_of_shape hm.shape_list)

/-! ## The sweep phase -/

theorem loadLoc_some {vm : VM} {b : Nat} {p : Ptr} :
    loadLoc vm (some b) = .ok p ↔ ∃ o, hread vm.heap b = some o ∧ o.next = p := by
  simp only [loadLoc]
  cases h : hread vm.heap b <;> simp

theorem markBit_of_read {h : Heap} {x : Nat} {o : Object} (ho : hread h x = some o) :
    markBit h x = o.marked := by
  simp [markBit, ho]

theorem markBit_congr {h h2 : Heap} {x : Nat} (e : hread h2 x = hread h x) :
    markBit h2 x = markBit h x := by
  simp [markBit, e]

theorem sweepLoop_spec {l : List Nat} {n : Nat} {vm : VM} {loc : Loc} {p : Ptr}
    (hload : loadLoc vm loc = .ok p) (hc : IsChain vm.heap p l)
    (hloc : ∀ b, loc = some b → b ∉ l) (hn : l.length < n) :
    ∃ vm2, sweepLoop n vm loc = .ok vm2 ∧ SweepPost vm loc l vm2 := by
  induction l generalizing n vm loc p with
  | nil =>
    obtain ⟨m, rfl⟩ : ∃ m, n = m + 1 := ⟨n - 1, by simp at hn; omega⟩
    have hp := isChain_nil.1 hc
    subst hp
    refine ⟨vm, by simp [sweepLoop, hload], rfl, rfl, by simp, rfl, fun _ => rfl,
      ⟨none, hload, isChain_nil.2 rfl⟩, ?_, by simp, by simp, fun _ _ _ => rfl⟩
    intro b o _ ho
    exact ⟨o, ho, rfl⟩
  | cons a l ih =>
    obtain ⟨m, rfl⟩ : ∃ m, n = m + 1 := ⟨n - 1, by simp at hn; omega⟩
    obtain ⟨hp, o, ho, hrest⟩ := isChain_cons.1 hc
    subst hp
    have hal : a ∉ l := hc.head_not_mem
    have hla : ∀ x ∈ l, x ≠ a := fun x hx e => hal (e ▸ hx)
    have hlocl : ∀ b, loc = some b → b ∉ l := fun b hb hm => hloc b hb (List.mem_cons_of_mem a hm)
    have hloca : loc ≠ some a := fun e => hloc a e (List.mem_cons_self a l)
    simp only [sweepLoop, hload, ho]
    cases hmk : o.marked with
    | false =>
      simp only [Bool.not_false, if_true]
      -- the cell is unlinked and freed
      have hcell : ∀ x, x ≠ a → loc ≠ some x →
          hread (hfree (storeLoc vm o.next loc).heap a) x = hread vm.heap x := by
        intro x hxa hxl
        rw [hread_hfree_ne hxa]
        cases loc with
        | none => rfl
        | some b => exact hread_hupdate_ne _ (fun e => hxl (by rw [e]))
      have hload2 : loadLoc { storeLoc vm o.next loc with
          heap := hfree (storeLoc vm o.next loc).heap a,
          numObjects := (storeLoc vm o.next loc).numObjects - 1 } loc = .ok o.next := by
        cases loc with
        | none => rfl
        | some b =>
          obtain ⟨ob, hob, -⟩ := loadLoc_some.1 hload
          have hba : b ≠ a := fun e => hloca (by rw [e])
          refine loadLoc_some.2 ⟨{ ob with next := o.next }, ?_, rfl⟩
          show hread (hfree _ a) b = _
          rw [hread_hfree_ne hba]
          exact hread_hupdate_same _ hob
      have hc2 : IsChain (hfree (storeLoc vm o.next loc).heap a) o.next l :=
        hrest.congr fun x hx ox hox =>
          ⟨ox, by rw [hcell x (hla x hx) (fun e => hlocl x e hx)]; exact hox, rfl⟩
      obtain ⟨vm3, hrun, post⟩ := ih hload2 hc2 hlocl (Nat.lt_of_succ_lt_succ hn)
      have hbit : ∀ x ∈ l, markBit (hfree (storeLoc vm o.next loc).heap a) x
          = markBit vm.heap x :=
        fun x hx => markBit_congr (hcell x (hla x hx) (fun e => hlocl x e hx))
      have hbita : markBit vm.heap a = false := by rw [markBit_of_read ho, hmk]
      have hstack : (storeLoc vm o.next loc).stack = vm.stack := by cases loc <;> rfl
      have hmax : (storeLoc vm o.next loc).maxObjects = vm.maxObjects := by cases loc <;> rfl
      have hnum : (storeLoc vm o.next loc).numObjects = vm.numObjects := by cases loc <;> rfl
      refine ⟨vm3, hrun, ?_, ?_, ?_, ?_, ?_, ?_, ?_, ?_, ?_, ?_⟩
      · rw [post.stack_eq]; exact hstack
      · rw [post.max_eq]; exact hmax
      · rw [post.num_eq]
        simp only [hnum]
        have hcnt : l.countP (fun x => !markBit (hfree (storeLoc vm o.next loc).heap a) x)
            = l.countP (fun x => !markBit vm.heap x) :=
          List.countP_congr (fun x hx => by simp [hbit x hx])
        rw [List.countP_cons, hcnt]
        simp [hbita]
        omega
      · rw [post.length_eq]
        show (hfree _ a).length = _
        rw [length_hfree]
        cases loc with
        | none => rfl
        | some b => exact length_hupdate _ _ _
      · intro hne
        rw [post.first_eq hne]
        cases loc with
        | none => exact absurd rfl hne
        | some b => rfl
      · obtain ⟨p2, hl2, hch2⟩ := post.chain
        refine ⟨p2, hl2, ?_⟩
        rw [List.filter_cons, hbita]
        simp only [Bool.false_eq_true, if_false]
        rw [← List.filter_congr hbit]
        exact hch2
      · intro b ob hb hob
        subst hb
        have hba : b ≠ a := fun e => hloca (by rw [e])
        have hrb : hread (hfree (storeLoc vm o.next (some b)).heap a) b
            = some { ob with next := o.next } := by
          rw [hread_hfree_ne hba]
          exact hread_hupdate_same _ hob
        obtain ⟨o2, ho2, e2⟩ := post.cursor b _ rfl hrb
        exact ⟨o2, ho2, e2⟩
      · intro x hx ox hox hmx
        rcases List.mem_cons.1 hx with rfl | hx
        · rw [ho] at hox
          cases hox
          rw [hmk] at hmx
          cases hmx
        · exact post.kept x hx ox
            (by show hread (hfree _ a) x = _
                rw [hcell x (hla x hx) (fun e => hlocl x e hx)]; exact hox) hmx
      · intro x hx hbx
        rcases List.mem_cons.1 hx with rfl | hx
        · rw [post.frame x hal hloca]
          exact hread_hfree_same _ _
        · exact post.freed x hx (by rw [hbit x hx]; exact hbx)
      · intro x hx hxl
        have hxa : x ≠ a := fun e => hx (by rw [e]; exact List.mem_cons_self a l)
        rw [post.frame x (fun hm => hx (List.mem_cons_of_mem a hm)) hxl]
        exact hcell x hxa hxl
    | true =>
      simp only [Bool.not_true, Bool.false_eq_true, if_false]
      -- the cell stays; its mark is cleared and the cursor moves to its `next`
      have hlt := hread_lt ho
      have hcell : ∀ x, x ≠ a →
          hread (hwrite vm.heap a { o with marked := false }) x = hread vm.heap x :=
        fun x hxa => hread_hwrite_ne _ hxa
      have hra : hread (hwrite vm.heap a { o with marked := false }) a
          = some { o with marked := false } := hread_hwrite_same _ hlt
      have hload1 : loadLoc { vm with heap := hwrite vm.heap a { o with marked := false } }
          (some a) = .ok o.next := loadLoc_some.2 ⟨_, hra, rfl⟩
      have hc1 : IsChain (hwrite vm.heap a { o with marked := false }) o.next l :=
        hrest.congr fun x hx ox hox => ⟨ox, by rw [hcell x (hla x hx)]; exact hox, rfl⟩
      obtain ⟨vm3, hrun, post⟩ := ih hload1 hc1 (fun b hb => by cases hb; exact hal)
        (Nat.lt_of_succ_lt_succ hn)
      have hbit : ∀ x ∈ l, markBit (hwrite vm.heap a { o with marked := false }) x
          = markBit vm.heap x := fun x hx => markBit_congr (hcell x (hla x hx))
      have hbita : markBit vm.heap a = true := by rw [markBit_of_read ho, hmk]
      refine ⟨vm3, hrun, ?_, ?_, ?_, ?_, ?_, ?_, ?_, ?_, ?_, ?_⟩
      · exact post.stack_eq
      · exact post.max_eq
      · rw [post.num_eq]
        show vm.numObjects - _ = _
        have hcnt : l.countP
            (fun x => !markBit (hwrite vm.heap a { o with marked := false }) x)
            = l.countP (fun x => !markBit vm.heap x) :=
          List.countP_congr (fun x hx => by simp [hbit x hx])
        rw [List.countP_cons, hcnt]
        simp [hbita]
      · rw [post.length_eq]
        exact length_hwrite _ _ _
      · intro _
        exact post.first_eq (by simp)
      · obtain ⟨p2, hl2, hch2⟩ := post.chain
        obtain ⟨oa, hoa, hnext⟩ := loadLoc_some.1 hl2
        refine ⟨some a, ?_, ?_⟩
        · cases loc with
          | none =>
            show Except.ok vm3.firstObject = _
            rw [post.first_eq (by simp)]
            exact hload
          | some b =>
            obtain ⟨ob, hob, hbn⟩ := loadLoc_some.1 hload
            have hba : b ≠ a := fun e => hloca (by rw [e])
            refine loadLoc_some.2 ⟨ob, ?_, hbn⟩
            rw [post.frame b (hlocl b rfl) (fun e => hba (Option.some.inj e).symm)]
            show hread (hwrite _ a _) b = _
            rw [hcell b hba]
            exact hob
        · rw [List.filter_cons, hbita]
          simp only [if_true]
          refine isChain_cons.2 ⟨rfl, oa, hoa, ?_⟩
          rw [hnext, ← List.filter_congr hbit]
          exact hch2
      · intro b ob hb hob
        subst hb
        have hba : b ≠ a := fun e => hloca (by rw [e])
        refine ⟨ob, ?_, rfl⟩
        rw [post.frame b (hlocl b rfl) (fun e => hba (Option.some.inj e).symm)]
        show hread (hwrite _ a _) b = _
        rw [hcell b hba]
        exact hob
      · intro x hx ox hox hmx
        rcases List.mem_cons.1 hx with rfl | hx
        · rw [ho] at hox
          cases hox
          obtain ⟨o2, ho2, e2⟩ := post.cursor x _ rfl hra
          exact ⟨o2, ho2, e2⟩
        · exact post.kept x hx ox
            (by show hread (hwrite _ a _) x = _
                rw [hcell x (hla x hx)]; exact hox) hmx
      · intro x hx hbx
        rcases List.mem_cons.1 hx with rfl | hx
        · rw [hbita] at hbx
          cases hbx
        · exact post.freed x hx (by rw [hbit x hx]; exact hbx)
      · intro x hx hxl
        have hxa : x ≠ a := fun e => hx (by rw [e]; exact List.mem_cons_self a l)
        rw [post.frame x (fun hm => hx (List.mem_cons_of_mem a hm)) (fun e => hxa (Option.some.inj e).symm)]
        exact hcell x hxa

/-! ## The collector -/

theorem markBit_eq_true {h : Heap} {x : Nat} : markBit h x = true ↔ IsMarked h x := by
  unfold markBit IsMarked
  cases hread h x <;> simp

theorem WF.chain {vm : VM} (hwf : WF vm) : IsChain vm.heap vm.firstObject (registry vm) :=
  hwf.1

theorem WF.roots {vm : VM} (hwf : WF vm) : ∀ p ∈ vm.stack, PtrIn (registry vm) p :=
  hwf.2.1

theorem WF.closed {vm : VM} (hwf : WF vm) : Closed (registry vm) vm.heap :=
  hwf.2.2

/-- On a valid state `gc` returns: the mark phase marks from the stack, the
sweep phase filters the registry, and the threshold is recomputed. -/
theorem gc_spec {vm : VM} (hwf : WF vm) :
    ∃ h2 vm2, MarksList vm.heap vm.stack h2 ∧
      SweepPost { vm with heap := h2 } none (registry vm) vm2 ∧
      gc vm = .ok { vm2 with
        maxObjects := if vm2.numObjects = 0 then INIT_OBJ_NUM_MAX else wrapInt (vm2.numObjects * 2) } := by
  obtain ⟨h2, hm⟩ := markList_ok hwf.closed hwf.chain.cells_live hwf.roots
  have ml := markList_marks hm
  have hch : IsChain h2 vm.firstObject (registry vm) := hwf.chain.chain_of_shape ml.shape_list
  obtain ⟨vm2, hrun, post⟩ := @sweepLoop_spec (registry vm) (h2.length + 1)
    { vm with heap := h2 } none vm.firstObject rfl hch (by simp)
    (Nat.lt_succ_of_le hch.length_le)
  refine ⟨h2, vm2, ml, post, ?_⟩
  simp only [gc, markAll, hm, sweep, hrun]

theorem SweepPost.registry_filter {vm vm2 : VM} {l : List Nat} (post : SweepPost vm none l vm2)
    (m : Int) : registry { vm2 with maxObjects := m } = l.filter (markBit vm.heap) := by
  obtain ⟨p2, hl, hc⟩ := post.chain
  simp only [loadLoc, Except.ok.injEq] at hl
  subst hl
  exact @IsChain.registry_eq { vm2 with maxObjects := m } _ hc

/-- From a state without marks the mark phase marks exactly the live cells of
the registry. -/
theorem marked_iff_live {vm : VM} (hwf : WF vm) (hnm : NoMarks vm) {h2 : Heap}
    (ml : MarksList vm.heap vm.stack h2) {x : Nat} (hx : x ∈ registry vm) :
    markBit h2 x = true ↔ Live vm x := by
  rw [markBit_eq_true]
  constructor
  · intro hmx
    rcases ml.sound_list hmx with h0 | h0
    · obtain ⟨o, ho, hmo⟩ := h0
      rw [hnm x hx o ho] at hmo
      cases hmo
    · exact h0
  · intro hl
    refine ml.complete hwf.closed hwf.roots ?_ hl
    intro y hy _ hmy
    obtain ⟨o, ho, hmo⟩ := hmy
    rw [hnm y hy o ho] at hmo
    cases hmo

theorem Live.registered {vm : VM} (hwf : WF vm) {x : Nat} (hl : Live vm x) :
    x ∈ registry vm :=
  Reach.mem_reg hwf.closed hwf.roots hl

/-- The registry after `gc` on a valid state without marks. -/
theorem gc_registry {vm : VM} (hwf : WF vm) (hnm : NoMarks vm) :
    ∃ vm2, gc vm = .ok vm2 ∧ ∀ x, x ∈ registry vm2 ↔ Live vm x := by
  obtain ⟨h2, vm2, ml, post, hgc⟩ := gc_spec hwf
  refine ⟨_, hgc, fun x => ?_⟩
  rw [post.registry_filter, List.mem_filter]
  constructor
  · rintro ⟨hx, hb⟩
    exact (marked_iff_live hwf hnm ml hx).1 hb
  · intro hl
    exact ⟨hl.registered hwf, (marked_iff_live hwf hnm ml (hl.registered hwf)).2 hl⟩

theorem gc_post {vm : VM} (hwf : WF vm) (hnm : NoMarks vm) :
    ∃ vm2, gc vm = .ok vm2 ∧ GcPost vm vm2 := by
  obtain ⟨h2, vm2, ml, post, hgc⟩ := gc_spec hwf
  have hreg := post.registry_filter
    (if vm2.numObjects = 0 then INIT_OBJ_NUM_MAX else wrapInt (vm2.numObjects * 2))
  refine ⟨_, hgc, ?_, ?_, rfl, ?_, ?_, ?_, ?_⟩
  · exact post.stack_eq
  · exact post.length_eq.trans (shape_length ml.shape_list)
  · obtain ⟨p2, hl, hc⟩ := post.chain
    simp only [loadLoc, Except.ok.injEq] at hl
    subst hl
    rw [hreg]
    exact hc
  · exact ⟨markBit h2, hreg, fun x hx => marked_iff_live hwf hnm ml hx, post.num_eq⟩
  · intro x hx o ho
    rw [hreg, List.mem_filter] at hx
    obtain ⟨oh, hoh, e1, -, e3, e4, e5⟩ := shape_read ml.shape_list ho
    have hmk : oh.marked = true := by
      have := hx.2
      rwa [markBit_of_read hoh] at this
    obtain ⟨o2, ho2, e2⟩ := post.kept x hx.1 oh hoh hmk
    refine ⟨o2, ho2, ?_, ?_, ?_, ?_, ?_⟩
    · rw [e2]
    · rw [e2]; exact e1
    · rw [e2]; exact e3
    · rw [e2]; exact e4
    · rw [e2]; exact e5
  · intro x hx hnx
    rw [hreg, List.mem_filter] at hnx
    refine post.freed x hx ?_
    cases hb : markBit h2 x with
    | false => rfl
    | true => exact absurd ⟨hx, hb⟩ hnx

/-- The survivors of `gc` are the live cells. -/
theorem GcPost.mem_registry {vm vm2 : VM} (post : GcPost vm vm2) {x : Nat} :
    x ∈ registry vm2 ↔ x ∈ registry vm ∧ Live vm x := by
  obtain ⟨keep, hreg, hkeep, -⟩ := post.reg_eq
  rw [hreg, List.mem_filter]
  constructor
  · rintro ⟨hx, hk⟩
    exact ⟨hx, (hkeep x hx).1 hk⟩
  · rintro ⟨hx, hl⟩
    exact ⟨hx, (hkeep x hx).2 hl⟩

theorem GcPost.wf {vm vm2 : VM} (post : GcPost vm vm2) (hwf : WF vm) : WF vm2 := by
  refine ⟨post.chain, ?_, ?_⟩
  · intro p hp
    rw [post.stack_eq] at hp
    obtain ⟨a, ha, hmem⟩ := hwf.roots p hp
    cases ha
    exact ⟨a, rfl, post.mem_registry.2 ⟨hmem, Reach.root hp⟩⟩
  · intro a ha o2 ho2 ht
    obtain ⟨har, hlive⟩ := post.mem_registry.1 ha
    obtain ⟨o, ho⟩ := hwf.chain.cells_live a har
    obtain ⟨o3, ho3, -, e1, -, e4, e5⟩ := post.kept a ha o ho
    rw [Option.mem_def, ho3] at ho2
    cases ho2
    obtain ⟨⟨b, hb, hbm⟩, ⟨c, hc, hcm⟩⟩ := hwf.closed a har o ho (e1 ▸ ht)
    have hedge : ∀ y, (o.head = some y ∨ o.tail = some y) → Live vm y :=
      fun y hy => Reach.step hlive ⟨o, ho, e1 ▸ ht, hy⟩
    refine ⟨⟨b, ?_, post.mem_registry.2 ⟨hbm, hedge b (Or.inl hb)⟩⟩,
      ⟨c, ?_, post.mem_registry.2 ⟨hcm, hedge c (Or.inr hc)⟩⟩⟩
    · rw [e4]; exact hb
    · rw [e5]; exact hc

theorem GcPost.noMarks {vm vm2 : VM} (post : GcPost vm vm2) (hwf : WF vm) :
    NoMarks vm2 := by
  intro a ha o2 ho2
  obtain ⟨har, -⟩ := post.mem_registry.1 ha
  obtain ⟨o, ho⟩ := hwf.chain.cells_live a har
  obtain ⟨o3, ho3, hm3, -⟩ := post.kept a ha o ho
  rw [Option.mem_def, ho3] at ho2
  cases ho2
  exact hm3

theorem GcPost.count {vm vm2 : VM} (post : GcPost vm vm2)
    (hcnt : vm.numObjects = (registry vm).length) :
    vm2.numObjects = (registry vm2).length := by
  obtain ⟨keep, hreg, -, hnum⟩ := post.reg_eq
  rw [hnum, hreg, hcnt]
  have h1 := List.length_eq_countP_add_countP keep (l := registry vm)
  have h2 : List.countP (fun x => !keep x) (registry vm)
      = List.countP (fun a => ¬ keep a = true) (registry vm) :=
    List.countP_congr (fun x _ => by simp)
  rw [List.countP_eq_length_filter] at h1
  rw [h2]
  omega

/-! ## Allocation -/

theorem hupdate_append_new (h : Heap) (o : Object) (f : Object → Object) :
    hupdate (h ++ [some o]) h.length f = h ++ [some (f o)] := by
  unfold hupdate
  rw [hread_append_new]
  simp [hwrite]

theorem linked_chain {vm1 : VM} {reg : List Nat} {o : Object} (st : List Ptr)
    (hc : IsChain vm1.heap vm1.firstObject reg) (hnext : o.next = vm1.firstObject) :
    IsChain (linked vm1 o st).heap (linked vm1 o st).firstObject (vm1.heap.length :: reg) := by
  refine isChain_cons.2 ⟨rfl, o, hread_append_new _ _, ?_⟩
  rw [hnext]
  exact hc.congr fun x _ ox hox => ⟨ox, hread_append_some _ hox, rfl⟩

theorem linked_registry {vm1 : VM} {o : Object} (st : List Ptr)
    (hc : IsChain vm1.heap vm1.firstObject (registry vm1)) (hnext : o.next = vm1.firstObject) :
    registry (linked vm1 o st) = vm1.heap.length :: registry vm1 :=
  (linked_chain st hc hnext).registry_eq

theorem PtrIn.cons {reg : List Nat} {p : Ptr} (a : Nat) (hp : PtrIn reg p) :
    PtrIn (a :: reg) p := by
  obtain ⟨b, hb, hm⟩ := hp
  exact ⟨b, hb, List.mem_cons_of_mem a hm⟩

theorem linked_wf {vm1 : VM} {o : Object} {st : List Ptr} (hwf : WF vm1)
    (hnext : o.next = vm1.firstObject)
    (hst : ∀ p ∈ st, PtrIn (vm1.heap.length :: registry vm1) p)
    (hpair : o.type = .OBJ_PAIR → PtrIn (registry vm1) o.head ∧ PtrIn (registry vm1) o.tail) :
    WF (linked vm1 o st) := by
  have hreg := linked_registry st hwf.chain hnext
  refine ⟨by rw [hreg]; exact linked_chain st hwf.chain hnext, by rw [hreg]; exact hst, ?_⟩
  rw [hreg]
  intro a ha oa hoa ht
  rcases List.mem_cons.1 ha with rfl | ha
  · have : hread (linked vm1 o st).heap vm1.heap.length = some o := hread_append_new _ _
    rw [Option.mem_def, this] at hoa
    cases hoa
    exact ⟨(hpair ht).1.cons _, (hpair ht).2.cons _⟩
  · obtain ⟨ob, hob⟩ := hwf.chain.cells_live a ha
    have : hread (linked vm1 o st).heap a = some ob := hread_append_some _ hob
    rw [Option.mem_def, this] at hoa
    cases hoa
    obtain ⟨h1, h2⟩ := hwf.closed a ha oa hob ht
    exact ⟨h1.cons _, h2.cons _⟩

theorem linked_noMarks {vm1 : VM} {o : Object} {st : List Ptr} (hwf : WF vm1)
    (hnm : NoMarks vm1) (hnext : o.next = vm1.firstObject) (hmk : o.marked = false) :
    NoMarks (linked vm1 o st) := by
  intro a ha oa hoa
  rw [linked_registry st hwf.chain hnext] at ha
  rcases List.mem_cons.1 ha with rfl | ha
  · have : hread (linked vm1 o st).heap vm1.heap.length = some o := hread_append_new _ _
    rw [Option.mem_def, this] at hoa
    cases hoa
    exact hmk
  · obtain ⟨ob, hob⟩ := hwf.chain.cells_live a ha
    have : hread (linked vm1 o st).heap a = some ob := hread_append_some _ hob
    rw [Option.mem_def, this] at hoa
    cases hoa
    exact hnm a ha oa hob

/-- `newObject` in terms of the state in which it allocates. -/
theorem newObject_eq {vm vm1 : VM} (hb : beforeAlloc vm vm1) (type : ObjectType) :
    newObject vm type = .ok (vm1.heap.length,
      { linked vm1 ⟨type, false, vm1.firstObject, 0, none, none⟩ vm1.stack with
        stack := vm1.stack }) := by
  rcases hb with ⟨he, hg⟩ | ⟨hne, rfl⟩
  · simp only [newObject, if_pos he, hg]
    rfl
  · simp only [newObject, if_neg hne]
    rfl

/-- `pushInt` in terms of the state in which it allocates. -/
theorem pushInt_eq {vm vm1 : VM} (hb : beforeAlloc vm vm1) (intValue : Int) :
    pushInt vm intValue =
      push (linked vm1 ⟨.OBJ_INT, false, vm1.firstObject, intValue, none, none⟩ vm1.stack)
        (some vm1.heap.length) := by
  simp only [pushInt, newObject_eq hb, linked, hupdate_append_new]

theorem pop_append {vm : VM} {s : List Ptr} {y : Ptr} (hs : vm.stack = s ++ [y]) :
    pop vm = .ok y { vm with stack := s } := by
  simp [pop, hs, List.getD_eq_getElem?_getD]

theorem pop_nil {vm : VM} (hs : vm.stack = []) : pop vm = .fail .stackUnderflow vm := by
  simp [pop, hs]

theorem push_lt {vm : VM} (x : Ptr) (hlt : vm.stack.length < STACK_MAX) :
    push vm x = .ok () { vm with stack := vm.stack ++ [x] } := by
  simp [push, hlt]

theorem push_full {vm : VM} (x : Ptr) (hfull : ¬ vm.stack.length < STACK_MAX) :
    push vm x = .fail .stackOverflow vm := by
  simp [push, hfull]

theorem pop_mk (h : Heap) (s : List Ptr) (y : Ptr) (f : Ptr) (n m : Int) :
    pop ⟨h, s ++ [y], f, n, m⟩ = .ok y ⟨h, s, f, n, m⟩ :=
  pop_append rfl

theorem pop_mk_nil (h : Heap) (f : Ptr) (n m : Int) :
    pop ⟨h, [], f, n, m⟩ = .fail .stackUnderflow ⟨h, [], f, n, m⟩ :=
  pop_nil rfl

/-- `pushPair` with two operands on the stack. -/
theorem pushPair_eq {vm vm1 : VM} (hb : beforeAlloc vm vm1) {s : List Ptr} {a b : Ptr}
    (hs : vm1.stack = s ++ [a, b]) (hlen : vm1.stack.length ≤ STACK_MAX) :
    pushPair vm = .ok (some vm1.heap.length)
      (linked vm1 ⟨.OBJ_PAIR, false, vm1.firstObject, 0, a, b⟩
        (s ++ [some vm1.heap.length])) := by
  have hs1 : vm1.stack = (s ++ [a]) ++ [b] := by simp [hs]
  have hlt : s.length < STACK_MAX := by
    rw [hs] at hlen
    simp at hlen
    omega
  simp only [pushPair, newObject_eq hb, linked, hs1, pop_mk, hupdate_append_new]
  rw [push_lt _ hlt]

/-- `pushPair` on an empty stack stops at the first `pop`. -/
theorem pushPair_empty {vm vm1 : VM} (hb : beforeAlloc vm vm1) (hs : vm1.stack = []) :
    pushPair vm = .fail .stackUnderflow
      (linked vm1 ⟨.OBJ_PAIR, false, vm1.firstObject, 0, none, none⟩ []) := by
  simp only [pushPair, newObject_eq hb, linked, hs, pop_mk_nil]

/-- `pushPair` with one operand stops at the second `pop`. -/
theorem pushPair_single {vm vm1 : VM} (hb : beforeAlloc vm vm1) {b : Ptr}
    (hs : vm1.stack = [b]) :
    pushPair vm = .fail .stackUnderflow
      (linked vm1 ⟨.OBJ_PAIR, false, vm1.firstObject, 0, none, b⟩ []) := by
  have hs1 : vm1.stack = [] ++ [b] := by simp [hs]
  simp only [pushPair, newObject_eq hb, linked, hs1, pop_mk, hupdate_append_new, pop_mk_nil]

/-- The stack entries survive `gc`, whatever the marks. -/
theorem gc_roots {vm : VM} (hwf : WF vm) :
    ∃ vm2, gc vm = .ok vm2 ∧ vm2.stack = vm.stack ∧
      IsChain vm2.heap vm2.firstObject (registry vm2) ∧
      (∀ p ∈ vm.stack, PtrIn (registry vm2) p) ∧
      vm2.maxObjects = (if vm2.numObjects = 0 then INIT_OBJ_NUM_MAX else wrapInt (vm2.numObjects * 2)) := by
  obtain ⟨h2, vm2, ml, post, hgc⟩ := gc_spec hwf
  have hreg := post.registry_filter
    (if vm2.numObjects = 0 then INIT_OBJ_NUM_MAX else wrapInt (vm2.numObjects * 2))
  refine ⟨_, hgc, post.stack_eq, ?_, ?_, rfl⟩
  · obtain ⟨p2, hl, hc⟩ := post.chain
    simp only [loadLoc, Except.ok.injEq] at hl
    subst hl
    rw [hreg]
    exact hc
  · intro p hp
    obtain ⟨a, ha, hma⟩ := ml.roots_marked p hp
    obtain ⟨b, hb, hbm⟩ := hwf.roots p hp
    rw [ha] at hb
    cases hb
    refine ⟨a, ha, ?_⟩
    rw [hreg, List.mem_filter]
    exact ⟨hbm, markBit_eq_true.2 hma⟩

/-- On a valid state `newObject` has a state to allocate in; the stack entries
are registered there. -/
theorem beforeAlloc_exists {vm : VM} (hwf : WF vm) :
    ∃ vm1, beforeAlloc vm vm1 ∧ vm1.stack = vm.stack ∧
      IsChain vm1.heap vm1.firstObject (registry vm1) ∧
      (∀ p ∈ vm.stack, PtrIn (registry vm1) p) := by
  by_cases he : vm.numObjects = vm.maxObjects
  · obtain ⟨vm2, hgc, hst, hc, hr, -⟩ := gc_roots hwf
    exact ⟨vm2, Or.inl ⟨he, hgc⟩, hst, hc, hr⟩
  · exact ⟨vm, Or.inr ⟨he, rfl⟩, rfl, hwf.chain, hwf.roots⟩

theorem wrapInt_eq {z : Int} (h1 : -2147483648 ≤ z) (h2 : z < 2147483648) :
    wrapInt z = z := by
  unfold wrapInt
  omega

theorem gc_inv {vm : VM} (inv : Inv vm) :
    ∃ vm2, gc vm = .ok vm2 ∧ GcPost vm vm2 ∧ Inv vm2 := by
  obtain ⟨vm2, hgc, post⟩ := gc_post inv.wf inv.noMarks
  refine ⟨vm2, hgc, post, ⟨post.wf inv.wf, post.noMarks inv.wf, post.count inv.count, ?_⟩⟩
  rw [post.stack_eq]
  exact inv.stack_le

theorem beforeAlloc_inv {vm : VM} (inv : Inv vm) :
    ∃ vm1, beforeAlloc vm vm1 ∧ Inv vm1 ∧ vm1.stack = vm.stack := by
  by_cases he : vm.numObjects = vm.maxObjects
  · obtain ⟨vm2, hgc, post, inv2⟩ := gc_inv inv
    exact ⟨vm2, Or.inl ⟨he, hgc⟩, inv2, post.stack_eq⟩
  · exact ⟨vm, Or.inr ⟨he, rfl⟩, inv, rfl⟩

theorem beforeAlloc_unique {vm vm1 vm2 : VM} (h1 : beforeAlloc vm vm1)
    (h2 : beforeAlloc vm vm2) : vm1 = vm2 := by
  rcases h1 with ⟨e1, g1⟩ | ⟨n1, rfl⟩ <;> rcases h2 with ⟨e2, g2⟩ | ⟨n2, rfl⟩
  · rw [g1] at g2
    exact Except.ok.inj g2
  · exact absurd e1 n2
  · exact absurd e2 n1
  · rfl

/-- What `gc` leaves in place on a valid state, whatever its marks: memory keeps
its size, the registry afterwards is a sublist of the previous one, and every
survivor keeps its type, value, head and tail. -/
theorem gc_kept {vm : VM} (hwf : WF vm) :
    ∃ vm2, gc vm = .ok vm2 ∧ vm2.heap.length = vm.heap.length ∧
      (registry vm2).Sublist (registry vm) ∧
      ∀ x ∈ registry vm2, ∃ o o2, hread vm.heap x = some o ∧ hread vm2.heap x = some o2 ∧
        o2.type = o.type ∧ o2.value = o.value ∧ o2.head = o.head ∧ o2.tail = o.tail := by
  obtain ⟨h2, vm2, ml, post, hgc⟩ := gc_spec hwf
  have hreg := post.registry_filter
    (if vm2.numObjects = 0 then INIT_OBJ_NUM_MAX else wrapInt (vm2.numObjects * 2))
  refine ⟨_, hgc, post.length_eq.trans (shape_length ml.shape_list), ?_, ?_⟩
  · rw [hreg]
    exact List.filter_sublist _
  · intro x hx
    rw [hreg, List.mem_filter] at hx
    obtain ⟨o, ho⟩ := hwf.chain.cells_live x hx.1
    obtain ⟨oh, hoh, e1, -, e3, e4, e5⟩ := shape_read ml.shape_list ho
    have hmk : oh.marked = true := by
      have := hx.2
      rwa [markBit_of_read hoh] at this
    obtain ⟨o2, ho2, e⟩ := post.kept x hx.1 oh hoh hmk
    exact ⟨o, o2, ho, ho2, by rw [e]; exact e1, by rw [e]; exact e3, by rw [e]; exact e4,
      by rw [e]; exact e5⟩

/-- The state in which `newObject` allocates has the memory size of the state it
is called in, a sublist of its registry, and the same fields in what is
registered. -/
theorem beforeAlloc_kept {vm vm1 : VM} (hwf : WF vm) (hb : beforeAlloc vm vm1) :
    vm1.heap.length = vm.heap.length ∧ (registry vm1).Sublist (registry vm) ∧
      ∀ x ∈ registry vm1, ∃ o o1, hread vm.heap x = some o ∧ hread vm1.heap x = some o1 ∧
        o1.type = o.type ∧ o1.value = o.value ∧ o1.head = o.head ∧ o1.tail = o.tail := by
  rcases hb with ⟨-, hgc⟩ | ⟨-, rfl⟩
  · obtain ⟨vm2, hgc2, hlen, hsub, hfr⟩ := gc_kept hwf
    rw [hgc] at hgc2
    cases hgc2
    exact ⟨hlen, hsub, hfr⟩
  · refine ⟨rfl, List.Sublist.refl _, fun x hx => ?_⟩
    obtain ⟨o, ho⟩ := hwf.chain.cells_live x hx
    exact ⟨o, o, ho, ho, rfl, rfl, rfl, rfl⟩

/-! ## The invariant of the reachable states -/

theorem linked_inv {vm1 : VM} {o : Object} {st : List Ptr} (inv : Inv vm1)
    (hnext : o.next = vm1.firstObject) (hmk : o.marked = false)
    (hst : ∀ p ∈ st, PtrIn (vm1.heap.length :: registry vm1) p)
    (hpair : o.type = .OBJ_PAIR → PtrIn (registry vm1) o.head ∧ PtrIn (registry vm1) o.tail)
    (hlen : st.length ≤ STACK_MAX) : Inv (linked vm1 o st) := by
  refine ⟨linked_wf inv.wf hnext hst hpair, linked_noMarks inv.wf inv.noMarks hnext hmk,
    ?_, hlen⟩
  rw [linked_registry st inv.wf.chain hnext]
  show vm1.numObjects + 1 = _
  rw [inv.count]
  simp

theorem list_two_cases (l : List Ptr) :
    l = [] ∨ (∃ b, l = [b]) ∨ ∃ s a b, l = s ++ [a, b] := by
  rcases List.eq_nil_or_concat l with h | ⟨l1, b, rfl⟩
  · exact Or.inl h
  · rcases List.eq_nil_or_concat l1 with h1 | ⟨s, a, rfl⟩
    · subst h1
      exact Or.inr (Or.inl ⟨b, rfl⟩)
    · exact Or.inr (Or.inr ⟨s, a, b, by simp⟩)

theorem pushInt_inv {vm vm2 : VM} {v : Int} (inv : Inv vm)
    (hrun : pushInt vm v = .ok () vm2) : Inv vm2 := by
  obtain ⟨vm1, hb, inv1, -⟩ := beforeAlloc_inv inv
  rw [pushInt_eq hb] at hrun
  by_cases hfull : (linked vm1 ⟨.OBJ_INT, false, vm1.firstObject, v, none, none⟩
      vm1.stack).stack.length < STACK_MAX
  · rw [push_lt _ hfull] at hrun
    cases hrun
    refine @linked_inv vm1 _ (vm1.stack ++ [some vm1.heap.length]) inv1 rfl rfl ?_
      (fun ht => by cases ht) ?_
    · intro p hp
      rcases List.mem_append.1 hp with hp | hp
      · exact (inv1.wf.roots p hp).cons _
      · rw [List.mem_singleton] at hp
        exact ⟨_, hp, List.mem_cons_self _ _⟩
    · have : vm1.stack.length < STACK_MAX := hfull
      simp
      omega
  · rw [push_full _ hfull] at hrun
    cases hrun

theorem pushPair_inv {vm vm2 : VM} {r : Ptr} (inv : Inv vm)
    (hrun : pushPair vm = .ok r vm2) : Inv vm2 := by
  obtain ⟨vm1, hb, inv1, -⟩ := beforeAlloc_inv inv
  rcases list_two_cases vm1.stack with hs | ⟨b, hs⟩ | ⟨s, a, b, hs⟩
  · rw [pushPair_empty hb hs] at hrun
    cases hrun
  · rw [pushPair_single hb hs] at hrun
    cases hrun
  · rw [pushPair_eq hb hs inv1.stack_le] at hrun
    cases hrun
    have hmem : ∀ p ∈ s ++ [a, b], PtrIn (registry vm1) p := by
      rw [← hs]
      exact inv1.wf.roots
    refine @linked_inv vm1 _ (s ++ [some vm1.heap.length]) inv1 rfl rfl ?_
      (fun _ => ⟨hmem a (by simp), hmem b (by simp)⟩) ?_
    · intro p hp
      rcases List.mem_append.1 hp with hp | hp
      · exact (hmem p (List.mem_append_left _ hp)).cons _
      · rw [List.mem_singleton] at hp
        exact ⟨_, hp, List.mem_cons_self _ _⟩
    · have := inv1.stack_le
      rw [hs] at this
      simp at this ⊢
      omega

theorem pop_inv {vm vm2 : VM} {r : Ptr} (inv : Inv vm) (hrun : pop vm = .ok r vm2) :
    Inv vm2 := by
  unfold pop at hrun
  split at hrun
  · cases hrun
    refine ⟨⟨inv.wf.chain, ?_, inv.wf.closed⟩, inv.noMarks, inv.count, ?_⟩
    · intro p hp
      exact inv.wf.roots p (List.mem_of_mem_take hp)
    · have := inv.stack_le
      simp only [List.length_take]
      omega
  · cases hrun

theorem newVM_inv : Inv newVM := by
  refine ⟨by decide, by decide, by decide, by decide⟩

theorem step_inv {vm vm2 : VM} {op : Op} (inv : Inv vm) (hrun : step vm op = some vm2) :
    Inv vm2 := by
  cases op with
  | pushInt v =>
    simp only [step] at hrun
    cases h : pushInt vm v with
    | ok u s =>
      rw [h] at hrun
      cases hrun
      exact pushInt_inv inv h
    | fail f s => rw [h] at hrun; cases hrun
  | pushPair =>
    simp only [step] at hrun
    cases h : pushPair vm with
    | ok u s =>
      rw [h] at hrun
      cases hrun
      exact pushPair_inv inv h
    | fail f s => rw [h] at hrun; cases hrun
  | pop =>
    simp only [step] at hrun
    cases h : pop vm with
    | ok u s =>
      rw [h] at hrun
      cases hrun
      exact pop_inv inv h
    | fail f s => rw [h] at hrun; cases hrun
  | gc =>
    simp only [step] at hrun
    obtain ⟨vm3, hgc, -, inv3⟩ := gc_inv inv
    rw [hgc] at hrun
    cases hrun
    exact inv3

theorem run_inv {ops : List Op} {vm vm2 : VM} (inv : Inv vm)
    (hrun : run vm ops = some vm2) : Inv vm2 := by
  induction ops generalizing vm with
  | nil =>
    simp only [run, Option.some.injEq] at hrun
    subst hrun
    exact inv
  | cons op ops ih =>
    simp only [run] at hrun
    cases h : step vm op with
    | none => rw [h] at hrun; cases hrun
    | some vm1 =>
      rw [h] at hrun
      exact ih (step_inv inv h) hrun

theorem Reachable.inv {vm : VM} (hr : Reachable vm) : Inv vm := by
  obtain ⟨ops, hrun⟩ := hr
  exact run_inv newVM_inv hrun

/-! ## The threshold while `numObjects * 2` fits an `int` -/

theorem GcPost.num_le {vm vm2 : VM} (post : GcPost vm vm2) :
    vm2.numObjects ≤ vm.numObjects := by
  obtain ⟨keep, -, -, hnum⟩ := post.reg_eq
  rw [hnum]
  omega

/-- Below `COUNT_LIMIT` objects `gc` leaves the counter under a threshold of at
least 2. -/
theorem gc_thr {vm g : VM} (inv : Inv vm) (hlim : vm.numObjects < COUNT_LIMIT)
    (hgc : gc vm = .ok g) : 2 ≤ g.maxObjects ∧ g.numObjects < g.maxObjects := by
  obtain ⟨vm2, hgc2, post, inv2⟩ := gc_inv inv
  rw [hgc] at hgc2
  cases hgc2
  have hle := post.num_le
  have hnn : (0 : Int) ≤ g.numObjects := by rw [inv2.count]; exact Int.natCast_nonneg _
  have hmax := post.max_eq
  simp only [COUNT_LIMIT] at hlim
  by_cases h0 : g.numObjects = 0
  · rw [if_pos h0] at hmax
    rw [hmax, h0]
    decide
  · rw [if_neg h0, wrapInt_eq (by omega) (by omega)] at hmax
    omega

theorem beforeAlloc_thr {vm vm1 : VM} (inv : Inv vm) (thr : Thr vm)
    (hlim : vm.numObjects < COUNT_LIMIT) (hb : beforeAlloc vm vm1) :
    2 ≤ vm1.maxObjects ∧ vm1.numObjects < vm1.maxObjects := by
  rcases hb with ⟨-, hgc⟩ | ⟨hne, rfl⟩
  · exact gc_thr inv hlim hgc
  · exact ⟨thr.1, lt_of_le_of_ne thr.2 hne⟩

theorem step_thr {vm vm2 : VM} {op : Op} (inv : Inv vm) (thr : Thr vm)
    (hlim : vm.numObjects < COUNT_LIMIT) (hrun : step vm op = some vm2) : Thr vm2 := by
  obtain ⟨vm1, hb, inv1, -⟩ := beforeAlloc_inv inv
  have h1 := beforeAlloc_thr inv thr hlim hb
  have hlinked : ∀ (o : Object) (st : List Ptr),
      Thr (linked vm1 o st) := by
    intro o st
    refine ⟨h1.1, ?_⟩
    show vm1.numObjects + 1 ≤ vm1.maxObjects
    omega
  cases op with
  | pushInt v =>
    simp only [step, pushInt_eq hb] at hrun
    by_cases hfull : (linked vm1 ⟨.OBJ_INT, false, vm1.firstObject, v, none, none⟩
        vm1.stack).stack.length < STACK_MAX
    · rw [push_lt _ hfull] at hrun
      cases hrun
      exact hlinked _ (vm1.stack ++ [some vm1.heap.length])
    · rw [push_full _ hfull] at hrun
      cases hrun
  | pushPair =>
    simp only [step] at hrun
    rcases list_two_cases vm1.stack with hs | ⟨b, hs⟩ | ⟨s, a, b, hs⟩
    · rw [pushPair_empty hb hs] at hrun
      cases hrun
    · rw [pushPair_single hb hs] at hrun
      cases hrun
    · rw [pushPair_eq hb hs inv1.stack_le] at hrun
      cases hrun
      exact hlinked _ _
  | pop =>
    simp only [step] at hrun
    cases h : pop vm with
    | fail f s => rw [h] at hrun; cases hrun
    | ok r s =>
      rw [h] at hrun
      cases hrun
      unfold pop at h
      split at h
      · cases h
        exact thr
      · cases h
  | gc =>
    simp only [step] at hrun
    cases hgc : gc vm with
    | error f => rw [hgc] at hrun; cases hrun
    | ok g =>
      rw [hgc] at hrun
      cases hrun
      have := gc_thr inv hlim hgc
      exact ⟨this.1, le_of_lt this.2⟩

theorem runBelow_inv {ops : List Op} {vm vm2 : VM} (inv : Inv vm) (thr : Thr vm)
    (hrun : runBelow vm ops = some vm2) : Inv vm2 ∧ Thr vm2 ∧ run vm ops = some vm2 := by
  induction ops generalizing vm with
  | nil =>
    simp only [runBelow, Option.some.injEq] at hrun
    subst hrun
    exact ⟨inv, thr, rfl⟩
  | cons op ops ih =>
    simp only [runBelow] at hrun
    split at hrun
    · rename_i hlim
      cases h : step vm op with
      | none => rw [h] at hrun; cases hrun
      | some vm1 =>
        rw [h] at hrun
        obtain ⟨i2, t2, r2⟩ := ih (step_inv inv h) (step_thr inv thr hlim h) hrun
        refine ⟨i2, t2, ?_⟩
        simp only [run, h]
        exact r2
    · cases hrun

theorem ReachableBelow.thr {vm : VM} (hr : ReachableBelow vm) :
    Inv vm ∧ Thr vm ∧ Reachable vm := by
  obtain ⟨ops, hrun⟩ := hr
  obtain ⟨i, t, r⟩ := runBelow_inv newVM_inv ⟨by decide, by decide⟩ hrun
  exact ⟨i, t, ops, r⟩

/-! ## A second collection -/

theorem heap_ext {h h2 : Heap} (hlen : h2.length = h.length)
    (hcell : ∀ x, hread h2 x = hread h x) : h2 = h := by
  apply List.ext_getElem?
  intro x
  have := hcell x
  rw [hread_eq, hread_eq] at this
  by_cases hx : x < h.length
  · rw [List.getElem?_eq_getElem hx, List.getElem?_eq_getElem (by omega)] at this ⊢
    simpa using this
  · rw [List.getElem?_eq_none (by omega), List.getElem?_eq_none (by omega)]

/-- Two cells of the same shape with the same mark are the same cell. -/
theorem shape_read_eq {h h2 : Heap} (hs : shape h2 = shape h) {x : Nat}
    (hm : IsMarked h2 x ↔ IsMarked h x) : hread h2 x = hread h x := by
  cases ho : hread h x with
  | none => exact shape_read_none hs ho
  | some o =>
    obtain ⟨o2, ho2, e1, e2, e3, e4, e5⟩ := shape_read hs ho
    rw [ho2]
    have hmk : o2.marked = o.marked := by
      cases hb : o.marked with
      | true =>
        obtain ⟨o3, h3, m3⟩ := hm.2 ⟨o, ho, hb⟩
        rw [Option.mem_def, ho2] at h3
        cases h3
        exact m3
      | false =>
        cases hb2 : o2.marked with
        | false => rfl
        | true =>
          obtain ⟨o3, h3, m3⟩ := hm.1 ⟨o2, ho2, hb2⟩
          rw [Option.mem_def, ho] at h3
          cases h3
          rw [hb] at m3
          cases m3
    cases o
    cases o2
    simp only [Option.some.injEq, Object.mk.injEq]
    exact ⟨e1, hmk, e2, e3, e4, e5⟩

/-- Two chains over the same list start at the same pointer and agree on every
`next` along the list. -/
theorem IsChain.next_eq {h h2 : Heap} {p p2 : Ptr} {l : List Nat} (hc : IsChain h p l)
    (hc2 : IsChain h2 p2 l) :
    p = p2 ∧ ∀ x ∈ l, ∀ o o2, hread h x = some o → hread h2 x = some o2 →
      o.next = o2.next := by
  induction l generalizing p p2 with
  | nil => exact ⟨(isChain_nil.1 hc).trans (isChain_nil.1 hc2).symm, by simp⟩
  | cons a l ih =>
    obtain ⟨hp, o, ho, hrest⟩ := isChain_cons.1 hc
    obtain ⟨hp2, o2, ho2, hrest2⟩ := isChain_cons.1 hc2
    obtain ⟨hnext, hall⟩ := ih hrest hrest2
    refine ⟨hp.trans hp2.symm, ?_⟩
    intro x hx ox ox2 hox hox2
    rcases List.mem_cons.1 hx with rfl | hx
    · rw [ho] at hox
      rw [ho2] at hox2
      cases hox
      cases hox2
      exact hnext
    · exact hall x hx ox ox2 hox hox2

/-- What is live before `gc` is live after it. -/
theorem GcPost.live {vm vm2 : VM} (post : GcPost vm vm2) (hwf : WF vm) {x : Nat}
    (hl : Live vm x) : Live vm2 x := by
  induction hl with
  | root hx => exact Reach.root (by rw [post.stack_eq]; exact hx)
  | @step x y hxl he ih =>
    obtain ⟨o, ho, ht, hy⟩ := he
    have hxr : x ∈ registry vm2 := post.mem_registry.2 ⟨Live.registered hwf hxl, hxl⟩
    obtain ⟨o2, ho2, -, e1, -, e4, e5⟩ := post.kept x hxr o ho
    exact Reach.step ih ⟨o2, ho2, e1.trans ht, by rw [e4, e5]; exact hy⟩

/-- On a valid state without marks whose registry is live throughout, `gc`
changes nothing but the threshold. -/
theorem gc_all_live {vm : VM} (hwf : WF vm) (hnm : NoMarks vm)
    (hall : ∀ x ∈ registry vm, Live vm x) :
    gc vm = .ok { vm with
      maxObjects := if vm.numObjects = 0 then INIT_OBJ_NUM_MAX else wrapInt (vm.numObjects * 2) } := by
  obtain ⟨h2, vm3, ml, post, hgc⟩ := gc_spec hwf
  rw [hgc]
  have hbit : ∀ x ∈ registry vm, markBit h2 x = true :=
    fun x hx => (marked_iff_live hwf hnm ml hx).2 (hall x hx)
  have hfilter : (registry vm).filter (markBit h2) = registry vm :=
    List.filter_eq_self.2 hbit
  have hnum : vm3.numObjects = vm.numObjects := by
    rw [post.num_eq]
    have : (registry vm).countP (fun x => !markBit h2 x) = 0 := by
      rw [List.countP_eq_zero]
      intro x hx
      simp [hbit x hx]
    show vm.numObjects - _ = _
    rw [this]
    simp
  obtain ⟨p3, hl3, hc3⟩ := post.chain
  simp only [loadLoc, Except.ok.injEq] at hl3
  subst hl3
  rw [show ({ vm with heap := h2 } : VM).heap = h2 from rfl, hfilter] at hc3
  obtain ⟨hfirst, hnext⟩ := hc3.next_eq hwf.chain
  have hheap : vm3.heap = vm.heap := by
    refine heap_ext (post.length_eq.trans (shape_length ml.shape_list)) fun x => ?_
    by_cases hx : x ∈ registry vm
    · obtain ⟨o, ho⟩ := hwf.chain.cells_live x hx
      obtain ⟨oh, hoh, e1, -, e3, e4, e5⟩ := shape_read ml.shape_list ho
      have hmk : oh.marked = true := by
        have := hbit x hx
        rwa [markBit_of_read hoh] at this
      obtain ⟨o3, ho3, e⟩ := post.kept x hx oh hoh hmk
      rw [ho3, ho]
      have hn := hnext x hx o3 o ho3 ho
      have hm := hnm x hx o ho
      rw [e]
      cases o
      cases oh
      simp only [Option.some.injEq, Object.mk.injEq] at e1 e3 e4 e5 hm hn ⊢
      exact ⟨e1, hm.symm, hn, e3, e4, e5⟩
    · rw [post.frame x hx (by simp)]
      refine shape_read_eq ml.shape_list ⟨fun hm => ?_, fun hm => ml.mono_list hm⟩
      rcases ml.sound_list hm with h0 | h0
      · exact h0
      · exact absurd (Live.registered hwf h0) hx
  have hstack : vm3.stack = vm.stack := post.stack_eq
  cases vm3
  cases vm
  simp only at hnum hfirst hheap hstack ⊢
  subst hnum hfirst hheap hstack
  rfl

/-- A valid state without marks whose registry is live throughout and whose
threshold is the recomputed one is a fixed point of `gc`. -/
theorem gc_fixed {vm : VM} (hwf : WF vm) (hnm : NoMarks vm)
    (hall : ∀ x ∈ registry vm, Live vm x)
    (hmax : vm.maxObjects =
      if vm.numObjects = 0 then INIT_OBJ_NUM_MAX else wrapInt (vm.numObjects * 2)) :
    gc vm = .ok vm := by
  rw [gc_all_live hwf hnm hall, ← hmax]

/-! ## The claims -/

set_option maxRecDepth 100000 in
/-- Where the sample states come from. -/
theorem sample_states :
    run newVM [.pushInt 1, .pushInt 2, .pushPair, .pushInt 7, .pop] = some sample ∧
    run newVM [.pushInt 1] = some oneInt ∧
    run newVM [.pushInt 1, .gc] = some oneIntCollected ∧
    run newVM [.pushInt 1, .pushInt 2] = some twoInts ∧
    run newVM [.pushInt 1, .gc, .pushInt 2] = some twoIntsFull ∧
    pop oneInt = .ok (some 0) { oneInt with stack := [] } ∧
    (List.range 256).foldl
      (fun r _ => r.bind fun vm =>
        match push vm (some 0) with
        | .ok _ vm1 => some vm1
        | .fail _ _ => none)
      (some { oneInt with stack := [] }) = some fullStack := by
  refine ⟨by decide, by decide, by decide, by decide, by decide, by decide, by decide⟩

/-- The first Int of `sample` is reachable through the Pair on the stack. -/
theorem sample_live : Live sample 0 :=
  Reach.step (x := 2) (Reach.root (by decide))
    ⟨⟨.OBJ_PAIR, false, some 1, 0, some 0, some 1⟩, rfl, rfl, Or.inl rfl⟩

/-- C1, reachability soundness of `gc`: from a valid state in which no
registered object is marked, `gc` returns, and every object reachable from the
stack entries through zero or more Pair head/tail edges is in the registry
afterwards. -/
theorem gc_reachable_kept (vm : VM) (hwf : WF vm) (hnm : NoMarks vm) (x : Nat)
    (hx : Live vm x) : ∃ vm2, gc vm = .ok vm2 ∧ x ∈ registry vm2 := by
  obtain ⟨vm2, hgc, hreg⟩ := gc_registry hwf hnm
  exact ⟨vm2, hgc, (hreg x).2 hx⟩

/-- C1 on `sample`. -/
theorem gc_reachable_kept_witness :
    WF sample ∧ NoMarks sample ∧ Live sample 0 ∧
      ∃ vm2, gc sample = .ok vm2 ∧ 0 ∈ registry vm2 :=
  ⟨by decide, by decide, sample_live,
    gc_reachable_kept sample (by decide) (by decide) 0 sample_live⟩

/-- C2, reachability completeness of `gc`: from a valid state in which no
registered object is marked, `gc` returns a valid state, every registered object
that is not reachable from the stack has left the registry and has been freed,
and the registry afterwards consists of exactly the reachable objects. -/
theorem gc_registry_exact (vm : VM) (hwf : WF vm) (hnm : NoMarks vm) :
    ∃ vm2, gc vm = .ok vm2 ∧ WF vm2 ∧
      (∀ x ∈ registry vm, ¬ Live vm x → x ∉ registry vm2 ∧ hread vm2.heap x = none) ∧
      (∀ x, x ∈ registry vm2 ↔ Live vm x) := by
  obtain ⟨vm2, hgc, post⟩ := gc_post hwf hnm
  refine ⟨vm2, hgc, post.wf hwf, ?_, ?_⟩
  · intro x hx hnl
    have hnot : x ∉ registry vm2 := fun hm => hnl (post.mem_registry.1 hm).2
    exact ⟨hnot, post.freed x hx hnot⟩
  · intro x
    rw [post.mem_registry]
    exact ⟨fun h => h.2, fun h => ⟨Live.registered hwf h, h⟩⟩

/-- C2 on `sample`, whose unreferenced Int is collected. -/
theorem gc_registry_exact_witness :
    WF sample ∧ NoMarks sample ∧
      ∃ vm2, gc sample = .ok vm2 ∧ WF vm2 ∧
        (∀ x ∈ registry sample, ¬ Live sample x →
          x ∉ registry vm2 ∧ hread vm2.heap x = none) ∧
        (∀ x, x ∈ registry vm2 ↔ Live sample x) :=
  ⟨by decide, by decide, gc_registry_exact sample (by decide) (by decide)⟩

/-- C3, as the code has it: on a valid state `gc` returns, and when the count of
survivors `numObjects` lies in `-2^30 ≤ numObjects < 2^30`, so that the `int`
product `numObjects * 2` does not overflow, the threshold afterwards is the
initial threshold 8 when no object survives and `2 * numObjects` otherwise; it
is then `max 8 (2 * numObjects)` exactly when the count is 0 or at least 4. -/
theorem gc_threshold (vm : VM) (hwf : WF vm) :
    ∃ vm2, gc vm = .ok vm2 ∧
      (-COUNT_LIMIT ≤ vm2.numObjects → vm2.numObjects < COUNT_LIMIT →
        vm2.maxObjects =
          (if vm2.numObjects = 0 then INT_OBJ_NUM_MAX else 2 * vm2.numObjects) ∧
        (vm2.maxObjects = max INT_OBJ_NUM_MAX (2 * vm2.numObjects) ↔
          vm2.numObjects = 0 ∨ 4 ≤ vm2.numObjects)) := by
  obtain ⟨vm2, hgc, -, -, -, hmax⟩ := gc_roots hwf
  refine ⟨vm2, hgc, ?_⟩
  intro hlo hhi
  simp only [COUNT_LIMIT] at hlo hhi
  simp only [INIT_OBJ_NUM_MAX, INT_OBJ_NUM_MAX] at hmax ⊢
  by_cases h0 : vm2.numObjects = 0
  · rw [if_pos h0] at hmax
    rw [if_pos h0, hmax, h0]
    exact ⟨rfl, by decide⟩
  · rw [if_neg h0, wrapInt_eq (by omega) (by omega)] at hmax
    rw [if_neg h0, hmax]
    refine ⟨by omega, ?_⟩
    constructor
    · intro he
      by_contra hn
      have hlt : vm2.numObjects < 4 := by omega
      rw [max_eq_left (by omega)] at he
      omega
    · rintro (h | h)
      · exact absurd h h0
      · rw [max_eq_right (by omega)]
        omega

/-- C3 on `sample`, where three objects survive and the threshold becomes 6; on
`sample` with its counter set so that 2^30 objects are counted after the
collection, the product is outside the `int` range and the bound is needed. -/
theorem gc_threshold_witness :
    WF sample ∧
    (∃ vm2, gc sample = .ok vm2 ∧ vm2.numObjects = 3 ∧ vm2.maxObjects = 6) ∧
    (WF { sample with numObjects := 1073741825 } ∧
      ∃ vm2, gc { sample with numObjects := 1073741825 } = .ok vm2 ∧
        vm2.numObjects = 1073741824 ∧ vm2.maxObjects = -2147483648) ∧
    ∃ vm2, gc sample = .ok vm2 ∧
      (-COUNT_LIMIT ≤ vm2.numObjects → vm2.numObjects < COUNT_LIMIT →
        vm2.maxObjects =
          (if vm2.numObjects = 0 then INT_OBJ_NUM_MAX else 2 * vm2.numObjects) ∧
        (vm2.maxObjects = max INT_OBJ_NUM_MAX (2 * vm2.numObjects) ↔
          vm2.numObjects = 0 ∨ 4 ≤ vm2.numObjects)) :=
  ⟨by decide,
    ⟨{ heap := [some ⟨.OBJ_INT, false, none, 1, none, none⟩,
               some ⟨.OBJ_INT, false, some 0, 2, none, none⟩,
               some ⟨.OBJ_PAIR, false, some 1, 0, some 0, some 1⟩, none],
       stack := [some 2], firstObject := some 2, numObjects := 3, maxObjects := 6 },
      by decide, by decide, by decide⟩,
    ⟨by decide,
      { heap := [some ⟨.OBJ_INT, false, none, 1, none, none⟩,
                 some ⟨.OBJ_INT, false, some 0, 2, none, none⟩,
                 some ⟨.OBJ_PAIR, false, some 1, 0, some 0, some 1⟩, none],
        stack := [some 2], firstObject := some 2, numObjects := 1073741824,
        maxObjects := -2147483648 },
      by decide, by decide, by decide⟩,
    gc_threshold sample (by decide)⟩

/-- C3 as stated fails: after `pushInt 1` a collection leaves one object and the
threshold 2, not `max 8 (2 * 1) = 8`. -/
theorem gc_threshold_not_max :
    run newVM [.pushInt 1] = some oneInt ∧
      ∃ vm2, gc oneInt = .ok vm2 ∧ vm2.numObjects = 1 ∧ vm2.maxObjects = 2 ∧
        vm2.maxObjects ≠ max INT_OBJ_NUM_MAX (2 * vm2.numObjects) :=
  ⟨by decide, oneIntCollected, by decide, by decide, by decide, by decide⟩

/-- C4, as the code has it: in every state reachable from `newVM` by `pushInt`,
`pushPair`, `pop` and `gc`, each issued while `numObjects` is below 2^30 (so
that the `int` product `numObjects * 2` of `gc` cannot overflow), the threshold
`maxObjects` is at least 2. -/
theorem threshold_floor (vm : VM) (hr : ReachableBelow vm) : 2 ≤ vm.maxObjects :=
  hr.thr.2.1.1

/-- C4 on the state after `pushInt 1; gc`, where the floor is attained. -/
theorem threshold_floor_witness :
    ReachableBelow oneIntCollected ∧ 2 ≤ oneIntCollected.maxObjects :=
  ⟨⟨[.pushInt 1, .gc], by decide⟩,
    threshold_floor oneIntCollected ⟨[.pushInt 1, .gc], by decide⟩⟩

/-- C4 as stated fails: `pushInt 1; gc` reaches a state whose threshold is 2,
below the initial threshold 8. -/
theorem threshold_below_initial :
    Reachable oneIntCollected ∧ ¬ INT_OBJ_NUM_MAX ≤ oneIntCollected.maxObjects :=
  ⟨⟨[.pushInt 1, .gc], by decide⟩, by decide⟩

/-- C5, pair construction order: on a valid state whose stack ends with `a`
(second from top) and `b` (top), `pushPair` returns a Pair whose head is `a` and
whose tail is `b`, replaces the two entries by the Pair (one entry less), and
the Pair, `a` and `b` are registered afterwards, whether or not the allocation
collected first. The Pair is a new cell: it lies at the end of memory, where no
cell was before, outside the previous registry, and it is neither `a` nor `b`.
The resulting state is the state `vm1` in which `newObject` allocates (`vm`, or
what `gc` returns from it when the counter had reached the threshold) with the
Pair linked in front of its registry; every other registered object has the
type, value, head and tail it had before the call, and without a collection
nothing but the new cell, the stack, `firstObject` and the counter changes. -/
theorem pushPair_order (vm : VM) (s : List Ptr) (a b : Ptr) (hwf : WF vm)
    (hcap : vm.stack.length ≤ STACK_MAX) (hs : vm.stack = s ++ [a, b]) :
    ∃ n vm2, pushPair vm = .ok (some n) vm2 ∧ vm2.stack = s ++ [some n] ∧
      vm2.stack.length + 1 = vm.stack.length ∧
      (∃ o, hread vm2.heap n = some o ∧ o.type = .OBJ_PAIR ∧ o.head = a ∧ o.tail = b) ∧
      n ∈ registry vm2 ∧ PtrIn (registry vm2) a ∧ PtrIn (registry vm2) b ∧
      n = vm.heap.length ∧ hread vm.heap n = none ∧ n ∉ registry vm ∧
      a ≠ some n ∧ b ≠ some n ∧
      (∃ vm1, beforeAlloc vm vm1 ∧
        vm2 = linked vm1 ⟨.OBJ_PAIR, false, vm1.firstObject, 0, a, b⟩ (s ++ [some n]) ∧
        registry vm2 = n :: registry vm1 ∧ (registry vm1).Sublist (registry vm)) ∧
      (∀ x ∈ registry vm2, x ≠ n → ∃ o o2, hread vm.heap x = some o ∧
        hread vm2.heap x = some o2 ∧ o2.type = o.type ∧ o2.value = o.value ∧
        o2.head = o.head ∧ o2.tail = o.tail) ∧
      (vm.numObjects ≠ vm.maxObjects →
        vm2 = linked vm ⟨.OBJ_PAIR, false, vm.firstObject, 0, a, b⟩ (s ++ [some n])) := by
  obtain ⟨vm1, hb, hst, hc, hroots⟩ := beforeAlloc_exists hwf
  obtain ⟨hlen, hsub, hfr⟩ := beforeAlloc_kept hwf hb
  have hs1 : vm1.stack = s ++ [a, b] := hst.trans hs
  have hreg := (linked_chain (o := ⟨.OBJ_PAIR, false, vm1.firstObject, 0, a, b⟩)
    (s ++ [some vm1.heap.length]) hc rfl).registry_eq
  have hnone : hread vm.heap vm1.heap.length = none := by
    rw [hlen, hread_eq, List.getElem?_eq_none (le_refl _)]
    rfl
  have hnreg : vm1.heap.length ∉ registry vm := by
    intro hm
    obtain ⟨o, ho⟩ := hwf.chain.cells_live _ hm
    rw [hnone] at ho
    cases ho
  have hne : ∀ p ∈ vm.stack, p ≠ some vm1.heap.length := by
    intro p hp he
    obtain ⟨x, hx, hm⟩ := hwf.roots p hp
    rw [he] at hx
    cases hx
    exact hnreg hm
  refine ⟨vm1.heap.length, _, pushPair_eq hb hs1 (by rw [hst]; exact hcap), rfl, ?_,
    ⟨_, hread_append_new _ _, rfl, rfl, rfl⟩, ?_, ?_, ?_, hlen, hnone, hnreg,
    hne a (by rw [hs]; simp), hne b (by rw [hs]; simp),
    ⟨vm1, hb, rfl, hreg, hsub⟩, ?_, ?_⟩
  · rw [hs]
    simp [linked]
  · rw [hreg]
    exact List.mem_cons_self _ _
  · rw [hreg]
    exact (hroots a (by rw [hs]; simp)).cons _
  · rw [hreg]
    exact (hroots b (by rw [hs]; simp)).cons _
  · intro x hx hxn
    rw [hreg] at hx
    rcases List.mem_cons.1 hx with rfl | hx
    · exact absurd rfl hxn
    · obtain ⟨o, o1, ho, ho1, e⟩ := hfr x hx
      exact ⟨o, o1, ho, hread_append_some _ ho1, e⟩
  · intro hne2
    rcases hb with ⟨he, -⟩ | ⟨-, rfl⟩
    · exact absurd he hne2
    · rfl

/-- C5 on `pushInt 1; pushInt 2; pushPair` from `newVM`, whose Pair has the Int
of value 1 as head and the Int of value 2 as tail, and on `twoIntsFull`, where
the allocation collects first and the result is the same but for the
threshold. -/
theorem pushPair_order_witness :
    (run newVM [.pushInt 1, .pushInt 2] = some twoInts ∧
      pushPair twoInts = .ok (some 2)
        { heap := [some ⟨.OBJ_INT, false, none, 1, none, none⟩,
                   some ⟨.OBJ_INT, false, some 0, 2, none, none⟩,
                   some ⟨.OBJ_PAIR, false, some 1, 0, some 0, some 1⟩],
          stack := [some 2], firstObject := some 2, numObjects := 3, maxObjects := 8 } ∧
      ∃ n vm2, pushPair twoInts = .ok (some n) vm2 ∧ vm2.stack = [] ++ [some n] ∧
        vm2.stack.length + 1 = twoInts.stack.length ∧
        (∃ o, hread vm2.heap n = some o ∧ o.type = .OBJ_PAIR ∧ o.head = some 0 ∧
          o.tail = some 1) ∧
        n ∈ registry vm2 ∧ PtrIn (registry vm2) (some 0) ∧ PtrIn (registry vm2) (some 1) ∧
        n = twoInts.heap.length ∧ hread twoInts.heap n = none ∧ n ∉ registry twoInts ∧
        some 0 ≠ some n ∧ some 1 ≠ some n ∧
        (∃ vm1, beforeAlloc twoInts vm1 ∧
          vm2 = linked vm1 ⟨.OBJ_PAIR, false, vm1.firstObject, 0, some 0, some 1⟩
            ([] ++ [some n]) ∧
          registry vm2 = n :: registry vm1 ∧ (registry vm1).Sublist (registry twoInts)) ∧
        (∀ x ∈ registry vm2, x ≠ n → ∃ o o2, hread twoInts.heap x = some o ∧
          hread vm2.heap x = some o2 ∧ o2.type = o.type ∧ o2.value = o.value ∧
          o2.head = o.head ∧ o2.tail = o.tail) ∧
        (twoInts.numObjects ≠ twoInts.maxObjects →
          vm2 = linked twoInts ⟨.OBJ_PAIR, false, twoInts.firstObject, 0, some 0, some 1⟩
            ([] ++ [some n]))) ∧
    (twoIntsFull.numObjects = twoIntsFull.maxObjects ∧
      pushPair twoIntsFull = .ok (some 2)
        { heap := [some ⟨.OBJ_INT, false, none, 1, none, none⟩,
                   some ⟨.OBJ_INT, false, some 0, 2, none, none⟩,
                   some ⟨.OBJ_PAIR, false, some 1, 0, some 0, some 1⟩],
          stack := [some 2], firstObject := some 2, numObjects := 3, maxObjects := 4 } ∧
      ∃ n vm2, pushPair twoIntsFull = .ok (some n) vm2 ∧ vm2.stack = [] ++ [some n] ∧
        vm2.stack.length + 1 = twoIntsFull.stack.length ∧
        (∃ o, hread vm2.heap n = some o ∧ o.type = .OBJ_PAIR ∧ o.head = some 0 ∧
          o.tail = some 1) ∧
        n ∈ registry vm2 ∧ PtrIn (registry vm2) (some 0) ∧ PtrIn (registry vm2) (some 1) ∧
        n = twoIntsFull.heap.length ∧ hread twoIntsFull.heap n = none ∧
        n ∉ registry twoIntsFull ∧ some 0 ≠ some n ∧ some 1 ≠ some n ∧
        (∃ vm1, beforeAlloc twoIntsFull vm1 ∧
          vm2 = linked vm1 ⟨.OBJ_PAIR, false, vm1.firstObject, 0, some 0, some 1⟩
            ([] ++ [some n]) ∧
          registry vm2 = n :: registry vm1 ∧
          (registry vm1).Sublist (registry twoIntsFull)) ∧
        (∀ x ∈ registry vm2, x ≠ n → ∃ o o2, hread twoIntsFull.heap x = some o ∧
          hread vm2.heap x = some o2 ∧ o2.type = o.type ∧ o2.value = o.value ∧
          o2.head = o.head ∧ o2.tail = o.tail) ∧
        (twoIntsFull.numObjects ≠ twoIntsFull.maxObjects →
          vm2 = linked twoIntsFull
            ⟨.OBJ_PAIR, false, twoIntsFull.firstObject, 0, some 0, some 1⟩
            ([] ++ [some n]))) :=
  ⟨⟨by decide, by decide,
      pushPair_order twoInts [] (some 0) (some 1) (by decide) (by decide) (by decide)⟩,
    ⟨by decide, by decide,
      pushPair_order twoIntsFull [] (some 0) (some 1) (by decide) (by decide) (by decide)⟩⟩

/-- C7, stack boundary errors: on a stack within its capacity, `push` fails
exactly when `stackSize = STACK_MAX`, with Overflow, and `pop` fails exactly when
`stackSize = 0`, with Underflow; a failure leaves the state as it was. Otherwise
`push` appends its argument and `pop` removes and returns the last entry, so
`pop` after `push x` returns `x` and restores the state. -/
theorem stack_bounds (vm : VM) (x : Ptr) (hcap : vm.stack.length ≤ STACK_MAX) :
    ((∃ f s, push vm x = .fail f s) ↔ vm.stack.length = STACK_MAX) ∧
    (vm.stack.length = STACK_MAX → push vm x = .fail .stackOverflow vm) ∧
    (vm.stack.length ≠ STACK_MAX →
      push vm x = .ok () { vm with stack := vm.stack ++ [x] }) ∧
    ((∃ f s, pop vm = .fail f s) ↔ vm.stack.length = 0) ∧
    (vm.stack.length = 0 → pop vm = .fail .stackUnderflow vm) ∧
    (∀ s y, vm.stack = s ++ [y] → pop vm = .ok y { vm with stack := s }) ∧
    (vm.stack.length ≠ STACK_MAX → ∃ vm1, push vm x = .ok () vm1 ∧ pop vm1 = .ok x vm) := by
  have hfull : vm.stack.length = STACK_MAX → push vm x = .fail .stackOverflow vm :=
    fun h => push_full x (by omega)
  have hroom : vm.stack.length ≠ STACK_MAX →
      push vm x = .ok () { vm with stack := vm.stack ++ [x] } :=
    fun h => push_lt x (by omega)
  have hempty : vm.stack.length = 0 → pop vm = .fail .stackUnderflow vm :=
    fun h => pop_nil (List.length_eq_zero.1 h)
  refine ⟨⟨?_, fun h => ⟨_, _, hfull h⟩⟩, hfull, hroom, ⟨?_, fun h => ⟨_, _, hempty h⟩⟩,
    hempty, fun s y h => pop_append h, fun h => ⟨_, hroom h, pop_mk _ _ _ _ _ _⟩⟩
  · rintro ⟨f, s, hf⟩
    by_contra hne
    rw [hroom hne] at hf
    cases hf
  · rintro ⟨f, s, hf⟩
    by_contra hne
    obtain ⟨t, y, ht⟩ : ∃ t y, vm.stack = t ++ [y] := by
      rcases List.eq_nil_or_concat vm.stack with h | ⟨t, y, h⟩
      · rw [h] at hne
        exact absurd rfl hne
      · exact ⟨t, y, by rw [h, List.concat_eq_append]⟩
    rw [pop_append ht] at hf
    cases hf

/-- C7 on the state after `pushInt 1; pushInt 2`. -/
theorem stack_bounds_witness :
    twoInts.stack.length ≤ STACK_MAX ∧
    (((∃ f s, push twoInts (some 0) = .fail f s) ↔ twoInts.stack.length = STACK_MAX) ∧
    (twoInts.stack.length = STACK_MAX → push twoInts (some 0) = .fail .stackOverflow twoInts) ∧
    (twoInts.stack.length ≠ STACK_MAX →
      push twoInts (some 0) = .ok () { twoInts with stack := twoInts.stack ++ [some 0] }) ∧
    ((∃ f s, pop twoInts = .fail f s) ↔ twoInts.stack.length = 0) ∧
    (twoInts.stack.length = 0 → pop twoInts = .fail .stackUnderflow twoInts) ∧
    (∀ s y, twoInts.stack = s ++ [y] → pop twoInts = .ok y { twoInts with stack := s }) ∧
    (twoInts.stack.length ≠ STACK_MAX →
      ∃ vm1, push twoInts (some 0) = .ok () vm1 ∧ pop vm1 = .ok (some 0) twoInts)) :=
  ⟨by decide, stack_bounds twoInts (some 0) (by decide)⟩

/-- C9, collection is idempotent: from a valid state in which no registered
object is marked, `gc` returns a state on which a second `gc` returns that very
state: counter, registry, memory, stack and threshold are all unchanged. -/
theorem gc_idempotent (vm : VM) (hwf : WF vm) (hnm : NoMarks vm) :
    ∃ vm1, gc vm = .ok vm1 ∧ gc vm1 = .ok vm1 := by
  obtain ⟨vm1, hgc, post⟩ := gc_post hwf hnm
  refine ⟨vm1, hgc, gc_fixed (post.wf hwf) (post.noMarks hwf) ?_ post.max_eq⟩
  intro x hx
  exact post.live hwf (post.mem_registry.1 hx).2

/-- C9 on `sample`. -/
theorem gc_idempotent_witness :
    WF sample ∧ NoMarks sample ∧ ∃ vm1, gc sample = .ok vm1 ∧ gc vm1 = .ok vm1 :=
  ⟨by decide, by decide, gc_idempotent sample (by decide) (by decide)⟩

/-- C10, threshold growth: from `newVM`, nine `pushInt` calls with any values
and no pops. Before each of the first eight calls the counter is below the
threshold 8, so none of them collects; after them `numObjects = 8 = maxObjects`.
The ninth call collects first: that `gc` frees nothing, keeps the count at 8 and
sets the threshold to 16; then the ninth object is created, so that
`numObjects = 9` and all nine objects are registered and on the stack. -/
theorem threshold_growth (v1 v2 v3 v4 v5 v6 v7 v8 v9 : Int) :
    ∃ s8 g s9,
      (∀ k, k < 8 → ∃ s,
        run newVM (([v1, v2, v3, v4, v5, v6, v7, v8].map Op.pushInt).take k) = some s ∧
          s.numObjects = k ∧ s.maxObjects = 8) ∧
      run newVM ([v1, v2, v3, v4, v5, v6, v7, v8].map Op.pushInt) = some s8 ∧
      s8.numObjects = 8 ∧ s8.maxObjects = 8 ∧
      gc s8 = .ok g ∧ beforeAlloc s8 g ∧
      g.numObjects = 8 ∧ g.maxObjects = 16 ∧ registry g = registry s8 ∧
      pushInt s8 v9 = .ok () s9 ∧
      s9.numObjects = 9 ∧ s9.maxObjects = 16 ∧
      registry s9 = [8, 7, 6, 5, 4, 3, 2, 1, 0] ∧
      s9.stack = [some 0, some 1, some 2, some 3, some 4, some 5, some 6, some 7, some 8] ∧
      s9.heap.map (Option.map Object.value) =
        [some v1, some v2, some v3, some v4, some v5, some v6, some v7, some v8, some v9] := by
  have h1 : step (intsState [] 8) (.pushInt v1) = some (intsState [v1] 8) := rfl
  have h2 : step (intsState [v1] 8) (.pushInt v2) = some (intsState [v1, v2] 8) := rfl
  have h3 : step (intsState [v1, v2] 8) (.pushInt v3)
      = some (intsState [v1, v2, v3] 8) := rfl
  have h4 : step (intsState [v1, v2, v3] 8) (.pushInt v4)
      = some (intsState [v1, v2, v3, v4] 8) := rfl
  have h5 : step (intsState [v1, v2, v3, v4] 8) (.pushInt v5)
      = some (intsState [v1, v2, v3, v4, v5] 8) := rfl
  have h6 : step (intsState [v1, v2, v3, v4, v5] 8) (.pushInt v6)
      = some (intsState [v1, v2, v3, v4, v5, v6] 8) := rfl
  have h7 : step (intsState [v1, v2, v3, v4, v5, v6] 8) (.pushInt v7)
      = some (intsState [v1, v2, v3, v4, v5, v6, v7] 8) := rfl
  have h8 : step (intsState [v1, v2, v3, v4, v5, v6, v7] 8) (.pushInt v8)
      = some (intsState [v1, v2, v3, v4, v5, v6, v7, v8] 8) := rfl
  have hnew : newVM = intsState [] 8 := rfl
  have hrun : run newVM ([v1, v2, v3, v4, v5, v6, v7, v8].map Op.pushInt)
      = some (intsState [v1, v2, v3, v4, v5, v6, v7, v8] 8) := by
    simp only [List.map, run, hnew, h1, h2, h3, h4, h5, h6, h7, h8]
  have inv : Inv (intsState [v1, v2, v3, v4, v5, v6, v7, v8] 8) := Reachable.inv ⟨_, hrun⟩
  have hreg : registry (intsState [v1, v2, v3, v4, v5, v6, v7, v8] 8)
      = [7, 6, 5, 4, 3, 2, 1, 0] := rfl
  have hst : (intsState [v1, v2, v3, v4, v5, v6, v7, v8] 8).stack
      = [some 0, some 1, some 2, some 3, some 4, some 5, some 6, some 7] := rfl
  have hall : ∀ x ∈ registry (intsState [v1, v2, v3, v4, v5, v6, v7, v8] 8),
      Live (intsState [v1, v2, v3, v4, v5, v6, v7, v8] 8) x := by
    intro x hx
    refine Reach.root ?_
    rw [hst]
    rw [hreg] at hx
    simp only [List.mem_cons, List.mem_singleton, Option.some.injEq, List.not_mem_nil,
      or_false] at hx ⊢
    omega
  have h16 : wrapInt (8 * 2) = 16 := by decide
  have hgc : gc (intsState [v1, v2, v3, v4, v5, v6, v7, v8] 8)
      = .ok (intsState [v1, v2, v3, v4, v5, v6, v7, v8] 16) := by
    refine (gc_all_live inv.wf inv.noMarks hall).trans (congrArg Except.ok ?_)
    show ({ intsState [v1, v2, v3, v4, v5, v6, v7, v8] 8 with
      maxObjects := if (8 : Int) = 0 then INIT_OBJ_NUM_MAX else wrapInt (8 * 2) } : VM) = _
    rw [h16]
    rfl
  have hb : beforeAlloc (intsState [v1, v2, v3, v4, v5, v6, v7, v8] 8)
      (intsState [v1, v2, v3, v4, v5, v6, v7, v8] 16) := Or.inl ⟨rfl, hgc⟩
  refine ⟨intsState [v1, v2, v3, v4, v5, v6, v7, v8] 8,
    intsState [v1, v2, v3, v4, v5, v6, v7, v8] 16,
    intsState [v1, v2, v3, v4, v5, v6, v7, v8, v9] 16,
    ?_, hrun, rfl, rfl, hgc, hb, rfl, rfl, rfl, ?_, rfl, rfl, rfl, rfl, rfl⟩
  · intro k hk
    interval_cases k
    · exact ⟨intsState [] 8, rfl, rfl, rfl⟩
    · exact ⟨intsState [v1] 8, h1, rfl, rfl⟩
    · exact ⟨intsState [v1, v2] 8,
        by simp only [List.map, List.take, run, hnew, h1, h2], rfl, rfl⟩
    · exact ⟨intsState [v1, v2, v3] 8,
        by simp only [List.map, List.take, run, hnew, h1, h2, h3], rfl, rfl⟩
    · exact ⟨intsState [v1, v2, v3, v4] 8,
        by simp only [List.map, List.take, run, hnew, h1, h2, h3, h4], rfl, rfl⟩
    · exact ⟨intsState [v1, v2, v3, v4, v5] 8,
        by simp only [List.map, List.take, run, hnew, h1, h2, h3, h4, h5], rfl, rfl⟩
    · exact ⟨intsState [v1, v2, v3, v4, v5, v6] 8,
        by simp only [List.map, List.take, run, hnew, h1, h2, h3, h4, h5, h6], rfl, rfl⟩
    · exact ⟨intsState [v1, v2, v3, v4, v5, v6, v7] 8,
        by simp only [List.map, List.take, run, hnew, h1, h2, h3, h4, h5, h6, h7], rfl, rfl⟩
  · rw [pushInt_eq hb]
    rfl

theorem hread_ge {h : Heap} {x : Nat} (hx : h.length ≤ x) : hread h x = none := by
  rw [hread_eq, List.getElem?_eq_none hx]
  rfl

theorem hread_append_ne (h : Heap) (c : Option Object) {x : Nat} (hx : x ≠ h.length) :
    hread (h ++ [c]) x = hread h x := by
  by_cases hlt : x < h.length
  · exact hread_append_lt _ hlt
  · rw [@hread_ge (h ++ [c]) x (by simp; omega), @hread_ge h x (by omega)]

/-- C11, no collection below the threshold: on a valid state with room on the
stack, `pushInt` with `numObjects < maxObjects` allocates in the state itself:
every cell that existed keeps all its fields, the registry gains one new
unmarked Int with the given value at its head, `numObjects` grows by one,
`maxObjects` is unchanged and the new reference is appended to the stack. The
allocator collects exactly when `numObjects = maxObjects` on entry: then it
allocates in the state that `gc` returns, otherwise in the state it was given. -/
theorem pushInt_below_threshold (vm : VM) (v : Int) (hwf : WF vm)
    (hlt : vm.numObjects < vm.maxObjects) (hroom : vm.stack.length < STACK_MAX) :
    (∃ vm2, pushInt vm v = .ok () vm2 ∧
      vm2 = linked vm ⟨.OBJ_INT, false, vm.firstObject, v, none, none⟩
        (vm.stack ++ [some vm.heap.length]) ∧
      registry vm2 = vm.heap.length :: registry vm ∧
      vm.heap.length ∉ registry vm ∧
      (∀ x, x ≠ vm.heap.length → hread vm2.heap x = hread vm.heap x) ∧
      hread vm2.heap vm.heap.length = some ⟨.OBJ_INT, false, vm.firstObject, v, none, none⟩ ∧
      vm2.numObjects = vm.numObjects + 1 ∧ vm2.maxObjects = vm.maxObjects ∧
      vm2.stack = vm.stack ++ [some vm.heap.length]) ∧
    (∀ (u : VM) (t : ObjectType),
      (u.numObjects ≠ u.maxObjects →
        newObject u t = .ok (u.heap.length,
          linked u ⟨t, false, u.firstObject, 0, none, none⟩ u.stack)) ∧
      (u.numObjects = u.maxObjects → ∀ g, gc u = .ok g →
        newObject u t = .ok (g.heap.length,
          linked g ⟨t, false, g.firstObject, 0, none, none⟩ g.stack)) ∧
      (u.numObjects = u.maxObjects → ∀ f, gc u = .error f → newObject u t = .error f)) := by
  constructor
  · have hb : beforeAlloc vm vm := Or.inr ⟨ne_of_lt hlt, rfl⟩
    refine ⟨_, (pushInt_eq hb v).trans (push_lt _ hroom), rfl,
      (linked_chain _ hwf.chain rfl).registry_eq, ?_, ?_, hread_append_new _ _, rfl, rfl, rfl⟩
    · intro hmem
      obtain ⟨o, ho⟩ := hwf.chain.cells_live _ hmem
      exact absurd (hread_lt ho) (lt_irrefl _)
    · intro x hx
      exact hread_append_ne _ _ hx
  · intro u t
    refine ⟨fun hne => newObject_eq (Or.inr ⟨hne, rfl⟩) t,
      fun he g hg => newObject_eq (Or.inl ⟨he, hg⟩) t, fun he f hf => ?_⟩
    simp only [newObject, if_pos he, hf]

/-- C11 on the state after `pushInt 1; pushInt 2`, below the threshold 8. -/
theorem pushInt_below_threshold_witness :
    WF twoInts ∧ twoInts.numObjects < twoInts.maxObjects ∧
      twoInts.stack.length < STACK_MAX ∧
      ∃ vm2, pushInt twoInts 3 = .ok () vm2 ∧
        vm2 = linked twoInts ⟨.OBJ_INT, false, twoInts.firstObject, 3, none, none⟩
          (twoInts.stack ++ [some twoInts.heap.length]) ∧
        registry vm2 = twoInts.heap.length :: registry twoInts ∧
        twoInts.heap.length ∉ registry twoInts ∧
        (∀ x, x ≠ twoInts.heap.length → hread vm2.heap x = hread twoInts.heap x) ∧
        hread vm2.heap twoInts.heap.length =
          some ⟨.OBJ_INT, false, twoInts.firstObject, 3, none, none⟩ ∧
        vm2.numObjects = twoInts.numObjects + 1 ∧ vm2.maxObjects = twoInts.maxObjects ∧
        vm2.stack = twoInts.stack ++ [some twoInts.heap.length] :=
  ⟨by decide, by decide, by decide,
    (pushInt_below_threshold twoInts 3 (by decide) (by decide) (by decide)).1⟩

/-! ## Which marks `mark` sets -/

theorem markBit_hwrite_same {h : Heap} {a : Nat} {o : Object} (ho : hread h a = some o)
    (b : Bool) : markBit (hwrite h a { o with marked := b }) a = b := by
  rw [markBit_of_read (hread_hwrite_same _ (hread_lt ho))]

/-- What `markLog` lists: distinct cells, all clear before the call; when the
call returns, they are exactly the cells it has changed, and they are marked. -/
theorem markLog_spec (n : Nat) (h : Heap) (p : Ptr) :
    (markLog n h p).Nodup ∧ (∀ x ∈ markLog n h p, markBit h x = false) ∧
    ∀ h2, markFuel n h p = .ok h2 →
      (∀ x ∈ markLog n h p, markBit h2 x = true) ∧
      (∀ x, x ∉ markLog n h p → hread h2 x = hread h x) := by
  induction n generalizing h p with
  | zero =>
    refine ⟨List.nodup_nil, by simp [markLog], ?_⟩
    intro h2 hm
    simp [markFuel] at hm
  | succ n ih =>
    cases p with
    | none =>
      refine ⟨List.nodup_nil, by simp [markLog], ?_⟩
      intro h2 hm
      simp [markFuel] at hm
    | some a =>
      cases ho : hread h a with
      | none =>
        refine ⟨by simp [markLog, ho], by simp [markLog, ho], ?_⟩
        intro h2 hm
        simp [markFuel, ho] at hm
      | some o =>
        by_cases hmk : o.marked = true
        · refine ⟨by simp [markLog, ho, hmk], by simp [markLog, ho, hmk], ?_⟩
          intro h2 hm
          simp only [markFuel, ho, if_pos hmk, Except.ok.injEq] at hm
          subst hm
          exact ⟨by simp [markLog, ho, hmk], fun _ _ => rfl⟩
        · have hmk2 : o.marked = false := by simpa using hmk
          have hbit1 : markBit (hwrite h a { o with marked := true }) a = true :=
            markBit_hwrite_same ho true
          have hne1 : ∀ x, x ≠ a →
              hread (hwrite h a { o with marked := true }) x = hread h x :=
            fun x hx => hread_hwrite_ne _ hx
          have hbita : markBit h a = false := by rw [markBit_of_read ho, hmk2]
          by_cases ht : o.type = .OBJ_PAIR
          · obtain ⟨nd1, un1, res1⟩ := ih (hwrite h a { o with marked := true }) o.head
            have ha1 : a ∉ markLog n (hwrite h a { o with marked := true }) o.head := by
              intro hmem
              have := un1 a hmem
              rw [hbit1] at this
              cases this
            have un1h : ∀ x ∈ markLog n (hwrite h a { o with marked := true }) o.head,
                markBit h x = false := by
              intro x hx
              have hxa : x ≠ a := fun e => ha1 (e ▸ hx)
              rw [← markBit_congr (hne1 x hxa)]
              exact un1 x hx
            cases e1 : markFuel n (hwrite h a { o with marked := true }) o.head with
            | error f =>
              have hlog : markLog (n + 1) h (some a)
                  = a :: markLog n (hwrite h a { o with marked := true }) o.head := by
                simp only [markLog, ho, if_neg hmk, if_pos ht, e1]
              rw [hlog]
              refine ⟨List.nodup_cons.2 ⟨ha1, nd1⟩, ?_, ?_⟩
              · intro x hx
                rcases List.mem_cons.1 hx with rfl | hx
                · exact hbita
                · exact un1h x hx
              · intro h2 hm
                simp only [markFuel, ho, if_neg hmk, if_pos ht, e1] at hm
                cases hm
            | ok h2 =>
              obtain ⟨mk1, fr1⟩ := res1 h2 e1
              obtain ⟨nd2, un2, res2⟩ := ih h2 o.tail
              have hlog : markLog (n + 1) h (some a)
                  = a :: (markLog n (hwrite h a { o with marked := true }) o.head
                    ++ markLog n h2 o.tail) := by
                simp only [markLog, ho, if_neg hmk, if_pos ht, e1]
              have hbit2a : markBit h2 a = true := by
                rw [markBit_congr (fr1 a ha1)]
                exact hbit1
              have ha2 : a ∉ markLog n h2 o.tail := by
                intro hmem
                have := un2 a hmem
                rw [hbit2a] at this
                cases this
              have hdisj : ∀ x ∈ markLog n (hwrite h a { o with marked := true }) o.head,
                  x ∉ markLog n h2 o.tail := by
                intro x hx hx2
                have := un2 x hx2
                rw [mk1 x hx] at this
                cases this
              rw [hlog]
              refine ⟨?_, ?_, ?_⟩
              · refine List.nodup_cons.2 ⟨?_, ?_⟩
                · intro hmem
                  rcases List.mem_append.1 hmem with hm1 | hm2
                  · exact ha1 hm1
                  · exact ha2 hm2
                · exact List.nodup_append.2 ⟨nd1, nd2, fun x hx hx2 => hdisj x hx hx2⟩
              · intro x hx
                rcases List.mem_cons.1 hx with rfl | hx
                · exact hbita
                · rcases List.mem_append.1 hx with hx1 | hx2
                  · exact un1h x hx1
                  · have hx1 : x ∉ markLog n (hwrite h a { o with marked := true }) o.head :=
                      fun hx1 => hdisj x hx1 hx2
                    have hxa : x ≠ a := fun e => ha2 (e ▸ hx2)
                    rw [← markBit_congr (hne1 x hxa), ← markBit_congr (fr1 x hx1)]
                    exact un2 x hx2
              · intro h3 hm
                simp only [markFuel, ho, if_neg hmk, if_pos ht, e1] at hm
                obtain ⟨mk2, fr2⟩ := res2 h3 hm
                refine ⟨?_, ?_⟩
                · intro x hx
                  rcases List.mem_cons.1 hx with rfl | hx
                  · rw [markBit_congr (fr2 x ha2)]
                    exact hbit2a
                  · rcases List.mem_append.1 hx with hx1 | hx2
                    · rw [markBit_congr (fr2 x (hdisj x hx1))]
                      exact mk1 x hx1
                    · exact mk2 x hx2
                · intro x hx
                  have hxa : x ≠ a := fun e => hx (e ▸ List.mem_cons_self _ _)
                  have hx1 : x ∉ markLog n (hwrite h a { o with marked := true }) o.head :=
                    fun hm1 => hx (List.mem_cons_of_mem _ (List.mem_append_left _ hm1))
                  have hx2 : x ∉ markLog n h2 o.tail :=
                    fun hm2 => hx (List.mem_cons_of_mem _ (List.mem_append_right _ hm2))
                  rw [fr2 x hx2, fr1 x hx1, hne1 x hxa]
          · have hlog : markLog (n + 1) h (some a) = [a] := by
              simp only [markLog, ho, if_neg hmk, if_neg ht]
            rw [hlog]
            refine ⟨List.nodup_singleton a, ?_, ?_⟩
            · intro x hx
              rw [List.mem_singleton] at hx
              subst hx
              exact hbita
            · intro h2 hm
              simp only [markFuel, ho, if_neg hmk, if_neg ht, Except.ok.injEq] at hm
              subst hm
              refine ⟨?_, ?_⟩
              · intro x hx
                rw [List.mem_singleton] at hx
                subst hx
                exact hbit1
              · intro x hx
                exact hne1 x (fun e => hx (by rw [e]; exact List.mem_singleton.2 rfl))

/-- C12, as the code has it: on every heap, cyclic or not, the recursion of
`mark` ends without reaching its depth bound, and on a valid state it returns
from any registered object. The assignments `marked = 1` it makes hit pairwise
distinct cells, each clear before the call; when it returns these are exactly
the cells it has changed, and each is marked. On a valid state `gc` returns, and
every registered object that lies on a cycle of Pair edges, is not reachable
from the stack and has its mark clear (as every object has between collections)
has left the registry and is freed. -/
theorem mark_cycle_safe (vm : VM) (p : Ptr) :
    mark vm.heap p ≠ .error .outOfFuel ∧
    (WF vm → PtrIn (registry vm) p → ∃ h2, mark vm.heap p = .ok h2) ∧
    (markWrites vm.heap p).Nodup ∧
    (∀ x ∈ markWrites vm.heap p, markBit vm.heap x = false) ∧
    (∀ h2, mark vm.heap p = .ok h2 →
      (∀ x ∈ markWrites vm.heap p, markBit h2 x = true) ∧
      (∀ x, x ∉ markWrites vm.heap p → hread h2 x = hread vm.heap x)) ∧
    (WF vm → ∃ vm2, gc vm = .ok vm2 ∧
      ∀ x ∈ registry vm, OnCycle vm.heap x → ¬ Live vm x → markBit vm.heap x = false →
        x ∉ registry vm2 ∧ hread vm2.heap x = none) := by
  obtain ⟨nd, un, res⟩ := markLog_spec (unmarkedCount vm.heap + 1) vm.heap p
  refine ⟨mark_fuel _ _, fun hwf hp => mark_ok hwf.closed hwf.chain.cells_live hp,
    nd, un, res, ?_⟩
  intro hwf
  obtain ⟨h2, vm2, ml, post, hgc⟩ := gc_spec hwf
  have hreg : registry { vm2 with maxObjects :=
      if vm2.numObjects = 0 then INIT_OBJ_NUM_MAX else wrapInt (vm2.numObjects * 2) }
      = (registry vm).filter (markBit h2) := post.registry_filter _
  refine ⟨_, hgc, ?_⟩
  intro x hx _ hnl hclear
  have hbit : markBit h2 x = false := by
    cases hb : markBit h2 x with
    | false => rfl
    | true =>
      rcases ml.sound_list (markBit_eq_true.1 hb) with h0 | h0
      · rw [markBit_eq_true.2 h0] at hclear
        cases hclear
      · exact absurd h0 hnl
  refine ⟨?_, post.freed x hx hbit⟩
  rw [hreg, List.mem_filter]
  intro hm
  rw [hbit] at hm
  cases hm.2

/-- What is reachable in `cyclic`: the Pair on the stack and its head. -/
theorem cyclic_live {x : Nat} (hx : Live cyclic x) : x = 0 ∨ x = 1 := by
  induction hx with
  | root hr =>
    simp only [cyclic, List.mem_singleton, Option.some.injEq] at hr
    exact Or.inr hr
  | step _ he ih =>
    obtain ⟨o, ho, ht, hy⟩ := he
    rcases ih with rfl | rfl
    · have : hread cyclic.heap 0 = some ⟨.OBJ_INT, false, none, 1, none, none⟩ := rfl
      rw [Option.mem_def, this] at ho
      cases ho
      cases ht
    · have : hread cyclic.heap 1 = some ⟨.OBJ_PAIR, false, some 0, 0, some 0, some 1⟩ := rfl
      rw [Option.mem_def, this] at ho
      cases ho
      rcases hy with hy | hy
      · exact Or.inl (Option.some.inj hy).symm
      · exact Or.inr (Option.some.inj hy).symm

/-- C12 on `cyclic`: marking the Pair that is its own tail returns after two
assignments, and `gc` frees the two unreferenced cycles. -/
theorem mark_cycle_safe_witness :
    WF cyclic ∧ NoMarks cyclic ∧
    OnCycle cyclic.heap 1 ∧ OnCycle cyclic.heap 2 ∧ OnCycle cyclic.heap 4 ∧
    ¬ Live cyclic 2 ∧ ¬ Live cyclic 3 ∧ ¬ Live cyclic 4 ∧
    markWrites cyclic.heap (some 1) = [1, 0] ∧
    (∃ vm2, gc cyclic = .ok vm2 ∧ registry vm2 = [1, 0]) ∧
    (mark cyclic.heap (some 1) ≠ .error .outOfFuel ∧
    (WF cyclic → PtrIn (registry cyclic) (some 1) → ∃ h2, mark cyclic.heap (some 1) = .ok h2) ∧
    (markWrites cyclic.heap (some 1)).Nodup ∧
    (∀ x ∈ markWrites cyclic.heap (some 1), markBit cyclic.heap x = false) ∧
    (∀ h2, mark cyclic.heap (some 1) = .ok h2 →
      (∀ x ∈ markWrites cyclic.heap (some 1), markBit h2 x = true) ∧
      (∀ x, x ∉ markWrites cyclic.heap (some 1) → hread h2 x = hread cyclic.heap x)) ∧
    (WF cyclic → ∃ vm2, gc cyclic = .ok vm2 ∧
      ∀ x ∈ registry cyclic, OnCycle cyclic.heap x → ¬ Live cyclic x →
        markBit cyclic.heap x = false → x ∉ registry vm2 ∧ hread vm2.heap x = none)) :=
  ⟨by decide, by decide,
    Relation.TransGen.single ⟨_, rfl, rfl, Or.inr rfl⟩,
    Relation.TransGen.tail (Relation.TransGen.single ⟨_, rfl, rfl, Or.inl rfl⟩)
      ⟨_, rfl, rfl, Or.inl rfl⟩,
    Relation.TransGen.single ⟨_, rfl, rfl, Or.inl rfl⟩,
    fun h => by have := cyclic_live h; omega,
    fun h => by have := cyclic_live h; omega,
    fun h => by have := cyclic_live h; omega,
    by decide,
    ⟨{ heap := [some ⟨.OBJ_INT, false, none, 1, none, none⟩,
               some ⟨.OBJ_PAIR, false, some 0, 0, some 0, some 1⟩, none, none, none],
       stack := [some 1], firstObject := some 1, numObjects := 2, maxObjects := 4 },
      by decide, by decide⟩,
    mark_cycle_safe cyclic (some 1)⟩

/-- C12 as stated fails: in the valid state `cyclicMarked` the Pair at cell 4 is
its own head and tail and is not reachable from the stack, but it carries a
mark; `gc` returns and that Pair is still in the registry. -/
theorem mark_cycle_stale :
    WF cyclicMarked ∧ 4 ∈ registry cyclicMarked ∧ OnCycle cyclicMarked.heap 4 ∧
    ¬ Live cyclicMarked 4 ∧
    ∃ vm2, gc cyclicMarked = .ok vm2 ∧ registry vm2 = [4, 1, 0] ∧ 4 ∈ registry vm2 :=
  ⟨by decide, by decide,
    Relation.TransGen.single ⟨_, rfl, rfl, Or.inl rfl⟩,
    fun h => by
      have hs : shape cyclic.heap = shape cyclicMarked.heap := by decide
      have := cyclic_live (Reach.reach_of_shape hs h)
      omega,
    ⟨{ heap := [some ⟨.OBJ_INT, false, none, 1, none, none⟩,
               some ⟨.OBJ_PAIR, false, some 0, 0, some 0, some 1⟩, none, none,
               some ⟨.OBJ_PAIR, false, some 1, 0, some 4, some 4⟩],
       stack := [some 1], firstObject := some 4, numObjects := 3, maxObjects := 6 },
      by decide, by decide, by decide⟩⟩

/-! ## The sweep phase on its own -/

theorem length_filter_add (l : List Nat) (keep : Nat → Bool) :
    (l.filter keep).length + l.countP (fun x => !keep x) = l.length := by
  have h1 := List.length_eq_countP_add_countP keep (l := l)
  have h2 : List.countP (fun x => !keep x) l = List.countP (fun a => ¬ keep a = true) l :=
    List.countP_congr (fun x _ => by simp)
  rw [List.countP_eq_length_filter] at h1
  rw [h2]
  omega

/-- On a state whose registry is a proper list `sweep` returns. -/
theorem sweep_spec {vm : VM} (hc : IsChain vm.heap vm.firstObject (registry vm)) :
    ∃ vm2, sweep vm = .ok vm2 ∧ SweepPost vm none (registry vm) vm2 ∧
      registry vm2 = (registry vm).filter (markBit vm.heap) ∧
      IsChain vm2.heap vm2.firstObject (registry vm2) := by
  obtain ⟨vm2, hrun, post⟩ := @sweepLoop_spec (registry vm) (vm.heap.length + 1) vm none
    vm.firstObject rfl hc (by simp) (Nat.lt_succ_of_le hc.length_le)
  have hreg : registry vm2 = (registry vm).filter (markBit vm.heap) :=
    post.registry_filter vm2.maxObjects
  refine ⟨vm2, hrun, post, hreg, ?_⟩
  obtain ⟨p2, hl, hch⟩ := post.chain
  simp only [loadLoc, Except.ok.injEq] at hl
  subst hl
  rw [hreg]
  exact hch

theorem SweepPost.clear {vm vm2 : VM} (post : SweepPost vm none (registry vm) vm2)
    (hc : IsChain vm.heap vm.firstObject (registry vm))
    (hreg : registry vm2 = (registry vm).filter (markBit vm.heap)) : NoMarks vm2 := by
  intro a ha o2 ho2
  rw [hreg, List.mem_filter] at ha
  obtain ⟨o, ho⟩ := hc.cells_live a ha.1
  have hmk : o.marked = true := by
    have := ha.2
    rwa [markBit_of_read ho] at this
  obtain ⟨o3, ho3, e⟩ := post.kept a ha.1 o ho hmk
  rw [Option.mem_def, ho3] at ho2
  cases ho2
  rw [e]

/-- C13, marks are clear between collections: on a valid state, whatever its
marks, `sweep` returns a state in which no registered object is marked; and no
registered object is marked in any state reachable from `newVM` by `pushInt`,
`pushPair`, `pop` and `gc`. -/
theorem marks_clear (vm : VM) :
    (WF vm → ∃ vm2, sweep vm = .ok vm2 ∧ NoMarks vm2) ∧ (Reachable vm → NoMarks vm) := by
  refine ⟨fun hwf => ?_, fun hr => hr.inv.noMarks⟩
  obtain ⟨vm2, hrun, post, hreg, -⟩ := sweep_spec hwf.chain
  exact ⟨vm2, hrun, post.clear hwf.chain hreg⟩

/-- C13 on `sampleMarked`, which carries marks, and on `sample`, which is
reachable. -/
theorem marks_clear_witness :
    markAll sample = .ok sampleMarked ∧ ¬ NoMarks sampleMarked ∧ WF sampleMarked ∧
    (∃ vm2, sweep sampleMarked = .ok vm2 ∧ NoMarks vm2) ∧
    Reachable sample ∧ NoMarks sample :=
  ⟨by decide, by decide, by decide, (marks_clear sampleMarked).1 (by decide),
    ⟨[.pushInt 1, .pushInt 2, .pushPair, .pushInt 7, .pop], by decide⟩,
    (marks_clear sample).2 ⟨[.pushInt 1, .pushInt 2, .pushPair, .pushInt 7, .pop], by decide⟩⟩

theorem markAll_ok {vm : VM} (hwf : WF vm) :
    ∃ h2, markAll vm = .ok { vm with heap := h2 } ∧ MarksList vm.heap vm.stack h2 := by
  obtain ⟨h2, hm⟩ := markList_ok hwf.closed hwf.chain.cells_live hwf.roots
  exact ⟨h2, by simp only [markAll, hm], markList_marks hm⟩

/-- C14, no dangling references at mark time: in every state reachable from
`newVM` by `pushInt`, `pushPair`, `pop` and `gc`, every stack entry points at a
registered object, every registered object is a live cell, every object
reachable from the stack is registered, and the head and tail of every reachable
Pair point at registered objects. Hence the mark phase returns without touching
a freed cell, in `gc` and in the collection that the allocator runs first. -/
theorem no_dangling (vm : VM) (hr : Reachable vm) :
    (∀ p ∈ vm.stack, PtrIn (registry vm) p) ∧
    (∀ a ∈ registry vm, ∃ o, hread vm.heap a = some o) ∧
    (∀ x, Live vm x → x ∈ registry vm ∧
      ∀ o, hread vm.heap x = some o → o.type = .OBJ_PAIR →
        PtrIn (registry vm) o.head ∧ PtrIn (registry vm) o.tail) ∧
    (∃ vm1, markAll vm = .ok vm1) ∧ (∃ vm2, gc vm = .ok vm2) ∧
    (∀ t, ∃ a vm3, newObject vm t = .ok (a, vm3)) := by
  have inv := hr.inv
  refine ⟨inv.wf.roots, inv.wf.chain.cells_live, ?_, ?_, ?_, ?_⟩
  · intro x hx
    have hreg := Live.registered inv.wf hx
    exact ⟨hreg, fun o ho ht => inv.wf.closed x hreg o ho ht⟩
  · obtain ⟨h2, hm, -⟩ := markAll_ok inv.wf
    exact ⟨_, hm⟩
  · obtain ⟨vm2, hgc, -⟩ := gc_inv inv
    exact ⟨vm2, hgc⟩
  · intro t
    obtain ⟨vm1, hb, -⟩ := beforeAlloc_inv inv
    exact ⟨_, _, newObject_eq hb t⟩

/-- C14 on `sample`. -/
theorem no_dangling_witness :
    Reachable sample ∧
    ((∀ p ∈ sample.stack, PtrIn (registry sample) p) ∧
    (∀ a ∈ registry sample, ∃ o, hread sample.heap a = some o) ∧
    (∀ x, Live sample x → x ∈ registry sample ∧
      ∀ o, hread sample.heap x = some o → o.type = .OBJ_PAIR →
        PtrIn (registry sample) o.head ∧ PtrIn (registry sample) o.tail) ∧
    (∃ vm1, markAll sample = .ok vm1) ∧ (∃ vm2, gc sample = .ok vm2) ∧
    (∀ t, ∃ a vm3, newObject sample t = .ok (a, vm3))) :=
  ⟨⟨[.pushInt 1, .pushInt 2, .pushPair, .pushInt 7, .pop], by decide⟩,
    no_dangling sample ⟨[.pushInt 1, .pushInt 2, .pushPair, .pushInt 7, .pop], by decide⟩⟩

/-- C15, sweep postcondition: on a valid state, whatever its marks, `sweep`
returns; the registry afterwards is the previous registry restricted to the
marked objects, in the previous order, and is again a proper list; every
unmarked object has left it and is freed; every remaining object has its mark
cleared and its type, value, head and tail unchanged; `numObjects` has decreased
by the number of removed objects; stack and threshold are unchanged. -/
theorem sweep_post (vm : VM) (hwf : WF vm) :
    ∃ vm2, sweep vm = .ok vm2 ∧
      registry vm2 = (registry vm).filter (markBit vm.heap) ∧
      (registry vm2).Sublist (registry vm) ∧
      IsChain vm2.heap vm2.firstObject (registry vm2) ∧
      (∀ x ∈ registry vm, markBit vm.heap x = false →
        x ∉ registry vm2 ∧ hread vm2.heap x = none) ∧
      (∀ x ∈ registry vm2, ∃ o o2, hread vm.heap x = some o ∧ hread vm2.heap x = some o2 ∧
        o.marked = true ∧ o2.marked = false ∧ o2.type = o.type ∧ o2.value = o.value ∧
        o2.head = o.head ∧ o2.tail = o.tail) ∧
      vm2.numObjects = vm.numObjects - ((registry vm).countP fun x => !markBit vm.heap x) ∧
      (registry vm2).length + ((registry vm).countP fun x => !markBit vm.heap x)
        = (registry vm).length ∧
      vm2.stack = vm.stack ∧ vm2.maxObjects = vm.maxObjects := by
  obtain ⟨vm2, hrun, post, hreg, hch⟩ := sweep_spec hwf.chain
  refine ⟨vm2, hrun, hreg, ?_, hch, ?_, ?_, post.num_eq, ?_, post.stack_eq, post.max_eq⟩
  · rw [hreg]
    exact List.filter_sublist _
  · intro x hx hb
    refine ⟨?_, post.freed x hx hb⟩
    rw [hreg, List.mem_filter]
    intro hm
    rw [hb] at hm
    cases hm.2
  · intro x hx
    rw [hreg, List.mem_filter] at hx
    obtain ⟨o, ho⟩ := hwf.chain.cells_live x hx.1
    have hmk : o.marked = true := by
      have := hx.2
      rwa [markBit_of_read ho] at this
    obtain ⟨o2, ho2, e⟩ := post.kept x hx.1 o ho hmk
    refine ⟨o, o2, ho, ho2, hmk, ?_, ?_, ?_, ?_, ?_⟩ <;> rw [e]
  · rw [hreg]
    exact length_filter_add _ _

/-- C15 on `sampleMarked`: the unmarked Int is removed, the three marked objects
stay in order. -/
theorem sweep_post_witness :
    WF sampleMarked ∧ registry sampleMarked = [3, 2, 1, 0] ∧
    (∃ vm2, sweep sampleMarked = .ok vm2 ∧ registry vm2 = [2, 1, 0] ∧
      vm2.numObjects = 3) ∧
    ∃ vm2, sweep sampleMarked = .ok vm2 ∧
      registry vm2 = (registry sampleMarked).filter (markBit sampleMarked.heap) ∧
      (registry vm2).Sublist (registry sampleMarked) ∧
      IsChain vm2.heap vm2.firstObject (registry vm2) ∧
      (∀ x ∈ registry sampleMarked, markBit sampleMarked.heap x = false →
        x ∉ registry vm2 ∧ hread vm2.heap x = none) ∧
      (∀ x ∈ registry vm2, ∃ o o2, hread sampleMarked.heap x = some o ∧
        hread vm2.heap x = some o2 ∧
        o.marked = true ∧ o2.marked = false ∧ o2.type = o.type ∧ o2.value = o.value ∧
        o2.head = o.head ∧ o2.tail = o.tail) ∧
      vm2.numObjects = sampleMarked.numObjects
        - ((registry sampleMarked).countP fun x => !markBit sampleMarked.heap x) ∧
      (registry vm2).length
        + ((registry sampleMarked).countP fun x => !markBit sampleMarked.heap x)
        = (registry sampleMarked).length ∧
      vm2.stack = sampleMarked.stack ∧ vm2.maxObjects = sampleMarked.maxObjects :=
  ⟨by decide, by decide,
    ⟨{ heap := [some ⟨.OBJ_INT, false, none, 1, none, none⟩,
               some ⟨.OBJ_INT, false, some 0, 2, none, none⟩,
               some ⟨.OBJ_PAIR, false, some 1, 0, some 0, some 1⟩, none],
       stack := [some 2], firstObject := some 2, numObjects := 3, maxObjects := 8 },
      by decide, by decide, by decide⟩,
    sweep_post sampleMarked (by decide)⟩

/-! ## `mark` does not depend on its depth bound -/

theorem markFuel_succ {n : Nat} {h : Heap} {p : Ptr} (hn : unmarkedCount h < n) :
    markFuel (n + 1) h p = markFuel n h p := by
  induction n generalizing h p with
  | zero => omega
  | succ n ih =>
    cases p with
    | none => rfl
    | some a =>
      cases ho : hread h a with
      | none => simp only [markFuel, ho]
      | some o =>
        by_cases hmk : o.marked = true
        · simp only [markFuel, ho, if_pos hmk]
        · have hmk2 : o.marked = false := by simpa using hmk
          have hcnt := unmarkedCount_hwrite ho hmk2
          by_cases ht : o.type = .OBJ_PAIR
          · have e1 : markFuel (n + 1) (hwrite h a { o with marked := true }) o.head
                = markFuel n (hwrite h a { o with marked := true }) o.head :=
              ih (by omega)
            have step1 : markFuel (n + 1 + 1) h (some a)
                = match markFuel (n + 1) (hwrite h a { o with marked := true }) o.head with
                  | .error f => .error f
                  | .ok h2 => markFuel (n + 1) h2 o.tail := by
              simp only [markFuel, ho, if_neg hmk, if_pos ht]
            have step2 : markFuel (n + 1) h (some a)
                = match markFuel n (hwrite h a { o with marked := true }) o.head with
                  | .error f => .error f
                  | .ok h2 => markFuel n h2 o.tail := by
              simp only [markFuel, ho, if_neg hmk, if_pos ht]
            rw [step1, step2, e1]
            cases e2 : markFuel n (hwrite h a { o with marked := true }) o.head with
            | error f => rfl
            | ok h2 =>
              have := (markFuel_marks e2).unmarked_le
              exact ih (by omega)
          · simp only [markFuel, ho, if_neg hmk, if_neg ht]

theorem markFuel_ge {n m : Nat} {h : Heap} {p : Ptr} (hn : unmarkedCount h < n)
    (hm : n ≤ m) : markFuel m h p = markFuel n h p := by
  induction m, hm using Nat.le_induction with
  | base => rfl
  | succ m hle ih => rw [markFuel_succ (by omega), ih]

theorem mark_eq_markFuel {n : Nat} {h : Heap} {p : Ptr} (hn : unmarkedCount h < n) :
    markFuel n h p = mark h p :=
  markFuel_ge (Nat.lt_succ_self _) hn

/-- C16, `mark` is idempotent: on an object that is already marked `mark`
returns the heap as it is, so a second `mark` of the same object after a first
one changes nothing. On an unmarked object it sets the mark and, when the object
is a Pair, goes on to mark the head and then the tail. -/
theorem mark_idempotent (h : Heap) (a : Nat) (o : Object) (ho : hread h a = some o) :
    (o.marked = true → mark h (some a) = .ok h) ∧
    (∀ h2, mark h (some a) = .ok h2 → mark h2 (some a) = .ok h2) ∧
    (o.marked = false → o.type ≠ .OBJ_PAIR →
      mark h (some a) = .ok (hwrite h a { o with marked := true })) ∧
    (o.marked = false → o.type = .OBJ_PAIR →
      mark h (some a) =
        match mark (hwrite h a { o with marked := true }) o.head with
        | .error f => .error f
        | .ok h2 => mark h2 o.tail) := by
  have seen : ∀ (g : Heap) (og : Object), hread g a = some og → og.marked = true →
      mark g (some a) = .ok g := by
    intro g og hg hmg
    simp only [mark, markFuel, hg, if_pos hmg]
  refine ⟨seen h o ho, ?_, ?_, ?_⟩
  · intro h2 hm
    obtain ⟨b, hb, o2, ho2, hm2⟩ := (markFuel_marks hm).root_marked
    cases hb
    exact seen h2 o2 ho2 hm2
  · intro hmk ht
    have hmk2 : ¬ o.marked = true := by simp [hmk]
    simp only [mark, markFuel, ho, if_neg hmk2, if_neg ht]
  · intro hmk ht
    have hmk2 : ¬ o.marked = true := by simp [hmk]
    have hcnt := unmarkedCount_hwrite ho hmk
    have step : mark h (some a)
        = match markFuel (unmarkedCount h) (hwrite h a { o with marked := true }) o.head with
          | .error f => .error f
          | .ok h2 => markFuel (unmarkedCount h) h2 o.tail := by
      simp only [mark, markFuel, ho, if_neg hmk2, if_pos ht]
    rw [step, mark_eq_markFuel (by omega)]
    cases e : mark (hwrite h a { o with marked := true }) o.head with
    | error f => rfl
    | ok h2 =>
      have := (markFuel_marks e).unmarked_le
      exact mark_eq_markFuel (by omega)

/-- C16 on the Pair of `sampleMarked`, which is marked, and on the Pair of
`sample`, which is not. -/
theorem mark_idempotent_witness :
    (hread sampleMarked.heap 2 = some ⟨.OBJ_PAIR, true, some 1, 0, some 0, some 1⟩ ∧
      mark sampleMarked.heap (some 2) = .ok sampleMarked.heap) ∧
    (hread sample.heap 2 = some ⟨.OBJ_PAIR, false, some 1, 0, some 0, some 1⟩ ∧
      mark sample.heap (some 2) = .ok sampleMarked.heap ∧
      mark sampleMarked.heap (some 2) = .ok sampleMarked.heap) :=
  ⟨⟨by decide,
      (mark_idempotent sampleMarked.heap 2 ⟨.OBJ_PAIR, true, some 1, 0, some 0, some 1⟩
        (by decide)).1 rfl⟩,
    ⟨by decide, by decide,
      (mark_idempotent sample.heap 2 _
        (by decide : hread sample.heap 2
          = some ⟨.OBJ_PAIR, false, some 1, 0, some 0, some 1⟩)).2.1 _ (by decide)⟩⟩

/-! ## The order of the roots -/

/-- From a closed heap whose registry carries no marks, marking a list of roots
marks exactly what is reachable from them, whatever their order. -/
theorem MarksList.marked_iff {reg : List Nat} {roots : List Ptr} {h h2 : Heap}
    (ml : MarksList h roots h2) (hc : Closed reg h) (hr : ∀ p ∈ roots, PtrIn reg p)
    (hnm : ∀ a ∈ reg, ∀ o ∈ hread h a, o.marked = false) (x : Nat) :
    IsMarked h2 x ↔ IsMarked h x ∨ Reach h roots x := by
  constructor
  · exact ml.sound_list
  · rintro (h0 | h0)
    · exact ml.mono_list h0
    · refine ml.complete hc hr ?_ h0
      intro y hy _ hmy
      obtain ⟨o, ho, hmo⟩ := hmy
      rw [hnm y hy o ho] at hmo
      cases hmo

/-- C17, root marking is order-independent: from a valid state in which no
registered object is marked, marking the stack entries in any permutation of
their order returns the very heap that `markAll` returns, and there the marked
registered objects are exactly those reachable from the stack. -/
theorem markAll_order (vm : VM) (roots : List Ptr) (hwf : WF vm) (hnm : NoMarks vm)
    (hperm : roots.Perm vm.stack) :
    ∃ h1, markAll vm = .ok { vm with heap := h1 } ∧ markList roots vm.heap = .ok h1 ∧
      (∀ x ∈ registry vm, IsMarked h1 x ↔ Live vm x) ∧
      (∀ x, x ∉ registry vm → hread h1 x = hread vm.heap x) := by
  obtain ⟨h1, hm1, ml1⟩ := markAll_ok hwf
  have hroots : ∀ p ∈ roots, PtrIn (registry vm) p :=
    fun p hp => hwf.roots p (hperm.mem_iff.1 hp)
  obtain ⟨h2, hm2⟩ := markList_ok hwf.closed hwf.chain.cells_live hroots
  have ml2 := markList_marks hm2
  have iff1 := ml1.marked_iff hwf.closed hwf.roots hnm
  have iff2 := ml2.marked_iff hwf.closed hroots hnm
  have hreach : ∀ x, Reach vm.heap roots x ↔ Reach vm.heap vm.stack x :=
    fun x => ⟨fun r => r.mono_roots (fun p hp => hperm.mem_iff.1 hp),
      fun r => r.mono_roots (fun p hp => hperm.mem_iff.2 hp)⟩
  have heq : h2 = h1 := by
    refine heap_ext ((shape_length ml2.shape_list).trans (shape_length ml1.shape_list).symm)
      fun x => ?_
    refine shape_read_eq (ml2.shape_list.trans ml1.shape_list.symm) ?_
    rw [iff1 x, iff2 x, hreach x]
  refine ⟨h1, hm1, by rw [hm2, heq], ?_, ?_⟩
  · intro x hx
    rw [iff1 x]
    constructor
    · rintro (h0 | h0)
      · obtain ⟨o, ho, hmo⟩ := h0
        rw [hnm x hx o ho] at hmo
        cases hmo
      · exact h0
    · exact Or.inr
  · intro x hx
    refine shape_read_eq ml1.shape_list ?_
    rw [iff1 x]
    constructor
    · rintro (h0 | h0)
      · exact h0
      · exact absurd (Live.registered hwf h0) hx
    · exact Or.inl

/-- C17 on a stack with two roots, marked in stack order and in reverse. -/
theorem markAll_order_witness :
    WF twoInts ∧ NoMarks twoInts ∧ [some 1, some 0].Perm twoInts.stack ∧
    ∃ h1, markAll twoInts = .ok { twoInts with heap := h1 } ∧
      markList [some 1, some 0] twoInts.heap = .ok h1 ∧
      (∀ x ∈ registry twoInts, IsMarked h1 x ↔ Live twoInts x) ∧
      (∀ x, x ∉ registry twoInts → hread h1 x = hread twoInts.heap x) :=
  ⟨by decide, by decide, List.Perm.swap _ _ _,
    markAll_order twoInts [some 1, some 0] (by decide) (by decide) (List.Perm.swap _ _ _)⟩

/-! ## Counter and threshold -/

/-- While every operation is issued with `numObjects` below 2^30, the counter
does not pass the threshold: `numObjects ≤ maxObjects`; and from such a state
with `numObjects` still below 2^30, `gc` returns a state with
`numObjects < maxObjects`, and `newObject` allocates in a state with
`numObjects < maxObjects`, also after the collection it runs when
`numObjects = maxObjects`, so that the counter stays within the threshold. -/
theorem counter_below_limit (vm : VM) (hr : ReachableBelow vm) :
    vm.numObjects ≤ vm.maxObjects ∧
    (vm.numObjects < COUNT_LIMIT →
      (∃ g, gc vm = .ok g ∧ g.numObjects < g.maxObjects) ∧
      (∀ vm1, beforeAlloc vm vm1 → vm1.numObjects < vm1.maxObjects) ∧
      (∀ t, ∃ a vm2, newObject vm t = .ok (a, vm2) ∧ vm2.numObjects ≤ vm2.maxObjects)) := by
  obtain ⟨inv, thr, -⟩ := hr.thr
  refine ⟨thr.2, fun hlim => ?_⟩
  obtain ⟨g, hgc, -, -⟩ := gc_inv inv
  obtain ⟨vm1, hb, -, -⟩ := beforeAlloc_inv inv
  have hroom := (beforeAlloc_thr inv thr hlim hb).2
  refine ⟨⟨g, hgc, (gc_thr inv hlim hgc).2⟩, ?_, ?_⟩
  · intro vm3 hb3
    rw [beforeAlloc_unique hb3 hb]
    exact hroom
  · intro t
    refine ⟨_, _, newObject_eq hb t, ?_⟩
    show vm1.numObjects + 1 ≤ vm1.maxObjects
    omega

/-- C20, frame of `gc`: on a valid state, whatever its marks, `gc` returns; the
stack and its size are unchanged; the registry afterwards is a sublist of the
previous one, so the survivors keep their relative order; every survivor keeps
its type, value, head and tail; every cell outside the registry keeps all its
fields but the mark; and memory keeps its size. What changes is registry
membership with its links, marks, `numObjects` and `maxObjects`. -/
theorem gc_frame (vm : VM) (hwf : WF vm) :
    ∃ vm2, gc vm = .ok vm2 ∧
      vm2.stack = vm.stack ∧ vm2.stack.length = vm.stack.length ∧
      (registry vm2).Sublist (registry vm) ∧
      (∀ x ∈ registry vm2, ∃ o o2, hread vm.heap x = some o ∧ hread vm2.heap x = some o2 ∧
        o2.type = o.type ∧ o2.value = o.value ∧ o2.head = o.head ∧ o2.tail = o.tail) ∧
      (∀ x, x ∉ registry vm → ∀ o, hread vm.heap x = some o →
        ∃ o2, hread vm2.heap x = some o2 ∧ o2.type = o.type ∧ o2.next = o.next ∧
          o2.value = o.value ∧ o2.head = o.head ∧ o2.tail = o.tail) ∧
      vm2.heap.length = vm.heap.length := by
  obtain ⟨h2, vm2, ml, post, hgc⟩ := gc_spec hwf
  have hreg : registry { vm2 with maxObjects :=
      if vm2.numObjects = 0 then INIT_OBJ_NUM_MAX else wrapInt (vm2.numObjects * 2) }
      = (registry vm).filter (markBit h2) := post.registry_filter _
  refine ⟨_, hgc, post.stack_eq, congrArg List.length post.stack_eq, ?_, ?_, ?_,
    post.length_eq.trans (shape_length ml.shape_list)⟩
  · rw [hreg]
    exact List.filter_sublist _
  · intro x hx
    rw [hreg, List.mem_filter] at hx
    obtain ⟨o, ho⟩ := hwf.chain.cells_live x hx.1
    obtain ⟨oh, hoh, e1, -, e3, e4, e5⟩ := shape_read ml.shape_list ho
    have hmk : oh.marked = true := by
      have := hx.2
      rwa [markBit_of_read hoh] at this
    obtain ⟨o2, ho2, e⟩ := post.kept x hx.1 oh hoh hmk
    refine ⟨o, o2, ho, ho2, ?_, ?_, ?_, ?_⟩
    · rw [e]; exact e1
    · rw [e]; exact e3
    · rw [e]; exact e4
    · rw [e]; exact e5
  · intro x hx o ho
    obtain ⟨oh, hoh, e1, e2, e3, e4, e5⟩ := shape_read ml.shape_list ho
    have hfr : hread vm2.heap x = hread h2 x := post.frame x hx (by simp)
    exact ⟨oh, hfr.trans hoh, e1, e2, e3, e4, e5⟩

/-- C20 on `sample`: the Pair and its two Ints survive in order. -/
theorem gc_frame_witness :
    WF sample ∧ registry sample = [3, 2, 1, 0] ∧
    (∃ vm2, gc sample = .ok vm2 ∧ registry vm2 = [2, 1, 0]) ∧
    ∃ vm2, gc sample = .ok vm2 ∧
      vm2.stack = sample.stack ∧ vm2.stack.length = sample.stack.length ∧
      (registry vm2).Sublist (registry sample) ∧
      (∀ x ∈ registry vm2, ∃ o o2, hread sample.heap x = some o ∧
        hread vm2.heap x = some o2 ∧
        o2.type = o.type ∧ o2.value = o.value ∧ o2.head = o.head ∧ o2.tail = o.tail) ∧
      (∀ x, x ∉ registry sample → ∀ o, hread sample.heap x = some o →
        ∃ o2, hread vm2.heap x = some o2 ∧ o2.type = o.type ∧ o2.next = o.next ∧
          o2.value = o.value ∧ o2.head = o.head ∧ o2.tail = o.tail) ∧
      vm2.heap.length = sample.heap.length :=
  ⟨by decide, by decide,
    ⟨{ heap := [some ⟨.OBJ_INT, false, none, 1, none, none⟩,
               some ⟨.OBJ_INT, false, some 0, 2, none, none⟩,
               some ⟨.OBJ_PAIR, false, some 1, 0, some 0, some 1⟩, none],
       stack := [some 2], firstObject := some 2, numObjects := 3, maxObjects := 6 },
      by decide, by decide⟩,
    gc_frame sample (by decide)⟩

/-! ## The threshold when `numObjects * 2` overflows -/

theorem run_append (vm : VM) (ops ops2 : List Op) :
    run vm (ops ++ ops2) = (run vm ops).bind fun vm1 => run vm1 ops2 := by
  induction ops generalizing vm with
  | nil => rfl
  | cons op ops ih =>
    simp only [List.cons_append, run]
    cases step vm op with
    | none => rfl
    | some vm1 => exact ih vm1

theorem Edge.append_cell {h : Heap} {x y : Nat} (c : Object) (he : Edge h x y) :
    Edge (h ++ [some c]) x y := by
  obtain ⟨o, ho, ht, hy⟩ := he
  exact ⟨o, hread_append_some _ ho, ht, hy⟩

/-- Linking a new cell keeps every object reachable when each old stack entry
stays on the stack or becomes a field of the new cell. -/
theorem linked_allLive {vm1 : VM} {o : Object} {st : List Ptr} (hwf : WF vm1)
    (hall : AllLive vm1) (hnext : o.next = vm1.firstObject)
    (hnew : some vm1.heap.length ∈ st)
    (hroots : ∀ x, some x ∈ vm1.stack →
      some x ∈ st ∨ (o.type = .OBJ_PAIR ∧ (o.head = some x ∨ o.tail = some x))) :
    AllLive (linked vm1 o st) := by
  have hold : ∀ x, Live vm1 x → Live (linked vm1 o st) x := by
    intro x hx
    induction hx with
    | root hr =>
      rcases hroots _ hr with h | ⟨ht, hf⟩
      · exact Reach.root h
      · exact Reach.step (Reach.root hnew) ⟨o, hread_append_new _ _, ht, hf⟩
    | step _ he ih => exact Reach.step ih (he.append_cell o)
  intro x hx
  rw [linked_registry st hwf.chain hnext] at hx
  rcases List.mem_cons.1 hx with rfl | hx
  · exact Reach.root hnew
  · exact hold x (hall x hx)

/-- With every object reachable, the collection `newObject` may run changes only
the threshold. -/
theorem beforeAlloc_allLive {vm vm1 : VM} (inv : Inv vm) (hall : AllLive vm)
    (hb : beforeAlloc vm vm1) :
    vm1 = { vm with maxObjects := allocMax vm.numObjects vm.maxObjects } := by
  rcases hb with ⟨he, hgc⟩ | ⟨hne, rfl⟩
  · rw [gc_all_live inv.wf inv.noMarks hall] at hgc
    rw [← Except.ok.inj hgc, allocMax, if_pos he]
  · rw [allocMax, if_neg hne]

/-- What `pushInt` does to a state all of whose objects are reachable. -/
theorem grow_int {vm : VM} (inv : Inv vm) (hall : AllLive vm)
    (hlen : vm.stack.length < STACK_MAX) (v : Int) :
    ∃ vm2, step vm (.pushInt v) = some vm2 ∧ Inv vm2 ∧ AllLive vm2 ∧
      vm2.stack.length = vm.stack.length + 1 ∧ vm2.numObjects = vm.numObjects + 1 ∧
      vm2.maxObjects = allocMax vm.numObjects vm.maxObjects := by
  obtain ⟨vm1, hb, inv1, hst⟩ := beforeAlloc_inv inv
  have h1 := beforeAlloc_allLive inv hall hb
  have hall1 : AllLive vm1 := by rw [h1]; exact hall
  have hrun : step vm (.pushInt v) = some
      (linked vm1 ⟨.OBJ_INT, false, vm1.firstObject, v, none, none⟩
        (vm1.stack ++ [some vm1.heap.length])) := by
    simp only [step, pushInt_eq hb]
    rw [push_lt _ (show (linked vm1 _ vm1.stack).stack.length < STACK_MAX by
      rw [← hst] at hlen; exact hlen)]
    rfl
  refine ⟨_, hrun, step_inv inv hrun, ?_, ?_, ?_, ?_⟩
  · exact linked_allLive inv1.wf hall1 rfl (by simp)
      fun x hx => Or.inl (List.mem_append_left _ hx)
  · show (vm1.stack ++ [some vm1.heap.length]).length = _
    rw [hst]
    simp
  · show vm1.numObjects + 1 = _
    rw [h1]
  · show vm1.maxObjects = _
    rw [h1]

/-- What `pushPair` does to a state all of whose objects are reachable. -/
theorem grow_pair {vm : VM} (inv : Inv vm) (hall : AllLive vm) {s : List Ptr} {a b : Ptr}
    (hs : vm.stack = s ++ [a, b]) :
    ∃ vm2, step vm .pushPair = some vm2 ∧ Inv vm2 ∧ AllLive vm2 ∧
      vm2.stack.length = s.length + 1 ∧ vm2.numObjects = vm.numObjects + 1 ∧
      vm2.maxObjects = allocMax vm.numObjects vm.maxObjects := by
  obtain ⟨vm1, hb, inv1, hst⟩ := beforeAlloc_inv inv
  have h1 := beforeAlloc_allLive inv hall hb
  have hall1 : AllLive vm1 := by rw [h1]; exact hall
  have hs1 : vm1.stack = s ++ [a, b] := hst.trans hs
  have hrun : step vm .pushPair = some
      (linked vm1 ⟨.OBJ_PAIR, false, vm1.firstObject, 0, a, b⟩
        (s ++ [some vm1.heap.length])) := by
    simp only [step, pushPair_eq hb hs1 inv1.stack_le]
  refine ⟨_, hrun, step_inv inv hrun, ?_, ?_, ?_, ?_⟩
  · refine linked_allLive inv1.wf hall1 rfl (by simp) fun x hx => ?_
    rw [hs1] at hx
    rcases List.mem_append.1 hx with hx | hx
    · exact Or.inl (List.mem_append_left _ hx)
    · simp only [List.mem_cons, List.mem_singleton, List.not_mem_nil, or_false] at hx
      exact Or.inr ⟨rfl, hx.imp Eq.symm Eq.symm⟩
  · show (s ++ [some vm1.heap.length]).length = _
    simp
  · show vm1.numObjects + 1 = _
    rw [h1]
  · show vm1.maxObjects = _
    rw [h1]

/-- Below 2^30 objects a threshold that is a power of two from 8 to 2^30 stays
one, and the allocation has room. -/
theorem allocMax_pow {n m : Int} {k : Nat} (hk3 : 3 ≤ k) (hk : k ≤ 30)
    (hm : m = ((2 ^ k : Nat) : Int)) (h1 : 1 ≤ n) (hle : n ≤ m) (hlt : n < 1073741824) :
    ∃ k2, 3 ≤ k2 ∧ k2 ≤ 30 ∧ allocMax n m = ((2 ^ k2 : Nat) : Int) ∧
      n + 1 ≤ allocMax n m := by
  have hlo : 2 ^ 3 ≤ 2 ^ k := Nat.pow_le_pow_right (by decide) hk3
  have hhi : 2 ^ k ≤ 2 ^ 30 := Nat.pow_le_pow_right (by decide) hk
  have e3 : (2 : Nat) ^ 3 = 8 := by norm_num
  have e30 : (2 : Nat) ^ 30 = 1073741824 := by norm_num
  rw [e3] at hlo
  rw [e30] at hhi
  by_cases he : n = m
  · have hk30 : k < 30 := by
      by_contra hc
      have : k = 30 := by omega
      subst this
      rw [e30] at hm
      omega
    have hn0 : n ≠ 0 := by omega
    refine ⟨k + 1, by omega, by omega, ?_, ?_⟩
    · rw [allocMax, if_pos he, if_neg hn0, wrapInt_eq (by omega) (by omega), pow_succ,
        Nat.cast_mul]
      omega
    · rw [allocMax, if_pos he, if_neg hn0, wrapInt_eq (by omega) (by omega)]
      omega
  · refine ⟨k, hk3, hk, ?_, ?_⟩
    · rw [allocMax, if_neg he, hm]
    · rw [allocMax, if_neg he]
      omega

/-- The chain of `j` Pairs, while it has fewer than 2^30 objects: all `2 * j + 1`
objects are registered and reachable, and the threshold is a power of two. -/
theorem chain_state (j : Nat) (hj : 2 * (j : Int) + 1 < 1073741824) :
    ∃ vm, run newVM (chainOps j) = some vm ∧ Inv vm ∧ AllLive vm ∧
      vm.stack.length = 1 ∧ vm.numObjects = 2 * (j : Int) + 1 ∧
      vm.numObjects ≤ vm.maxObjects ∧
      ∃ k, 3 ≤ k ∧ k ≤ 30 ∧ vm.maxObjects = ((2 ^ k : Nat) : Int) := by
  induction j with
  | zero =>
    obtain ⟨vm2, hst, inv2, hall2, hlen, hnum, hmax⟩ :=
      grow_int newVM_inv (fun x hx => by cases hx) (by decide) 0
    refine ⟨vm2, ?_, inv2, hall2, hlen, hnum, ?_, 3, le_refl _, by decide, ?_⟩
    · simp only [chainOps, run, hst]
    · rw [hnum, hmax]
      decide
    · rw [hmax]
      decide
  | succ j ih =>
    push_cast at hj
    obtain ⟨vm, hrun, inv, hall, hlen, hnum, hle, k, hk3, hk, hmax⟩ := ih (by omega)
    obtain ⟨vm2, hst2, inv2, hall2, hlen2, hnum2, hmax2⟩ :=
      grow_int inv hall (by rw [hlen]; decide) 0
    obtain ⟨k2, hk23, hk2, hp2, hroom2⟩ :=
      allocMax_pow hk3 hk hmax (by omega) hle (by omega)
    have hs2 : ∃ a b, vm2.stack = [] ++ [a, b] := by
      rw [hlen] at hlen2
      match hst : vm2.stack, hlen2 with
      | [a, b], _ => exact ⟨a, b, rfl⟩
    obtain ⟨a, b, hs2⟩ := hs2
    obtain ⟨vm3, hst3, inv3, hall3, hlen3, hnum3, hmax3⟩ := grow_pair inv2 hall2 hs2
    rw [hnum2, hmax2] at hmax3
    rw [hnum2] at hnum3
    obtain ⟨k3, hk33, hk3le, hp3, hroom3⟩ :=
      allocMax_pow hk23 hk2 hp2 (by omega) hroom2 (by omega)
    refine ⟨vm3, ?_, inv3, hall3, hlen3, ?_, ?_, k3, hk33, hk3le, ?_⟩
    · rw [chainOps, run_append, hrun]
      simp only [Option.bind, run, hst2, hst3]
    · rw [hnum3, hnum]
      push_cast
      omega
    · rw [hnum3, hmax3]
      omega
    · rw [hmax3]
      exact hp3

/-- C19 fails on the code at the calls `chainOps 536870912` on `newVM`, that is
`pushInt 0` followed by 2^29 times `pushInt 0; pushPair`: all of them return,
every object stays reachable, and the collection that `pushPair` runs at 2^30
objects computes `numObjects * 2` outside the `int` range. The state they end
in has `numObjects = 2^30 + 1` above `maxObjects = -2^31`, so the counter has
passed the threshold and differs from it; and a `gc` in that state returns with
`numObjects` still above `maxObjects`. -/
theorem counter_overflow :
    ∃ vm, run newVM (chainOps 536870912) = some vm ∧
      vm.numObjects = 1073741825 ∧ vm.maxObjects = -2147483648 ∧
      ¬ vm.numObjects ≤ vm.maxObjects ∧
      ∃ g, gc vm = .ok g ∧ ¬ g.numObjects < g.maxObjects := by
  obtain ⟨vm, hrun, inv, hall, hlen, hnum, hle, k, hk3, hk, hmax⟩ :=
    chain_state 536870911 (by norm_num)
  have hnum1 : vm.numObjects = 1073741823 := by
    rw [hnum]
    norm_num
  obtain ⟨vm2, hst2, inv2, hall2, hlen2, hnum2, hmax2⟩ :=
    grow_int inv hall (by rw [hlen]; decide) 0
  obtain ⟨k2, hk23, hk2, hp2, hroom2⟩ :=
    allocMax_pow hk3 hk hmax (by omega) hle (by omega)
  have hhi : 2 ^ k2 ≤ 2 ^ 30 := Nat.pow_le_pow_right (by decide) hk2
  have e30 : (2 : Nat) ^ 30 = 1073741824 := by norm_num
  rw [e30] at hhi
  have hmax2v : vm2.maxObjects = 1073741824 := by
    rw [hmax2]
    omega
  have hnum2v : vm2.numObjects = 1073741824 := by
    rw [hnum2, hnum1]
    rfl
  have hs2 : ∃ a b, vm2.stack = [] ++ [a, b] := by
    rw [hlen] at hlen2
    match hst : vm2.stack, hlen2 with
    | [a, b], _ => exact ⟨a, b, rfl⟩
  obtain ⟨a, b, hs2⟩ := hs2
  obtain ⟨vm3, hst3, inv3, hall3, hlen3, hnum3, hmax3⟩ := grow_pair inv2 hall2 hs2
  rw [hnum2v] at hnum3
  rw [hnum2v, hmax2v] at hmax3
  have hnum3v : vm3.numObjects = 1073741825 := by
    rw [hnum3]
    rfl
  have hmax3v : vm3.maxObjects = -2147483648 := by
    rw [hmax3]
    decide
  refine ⟨vm3, ?_, hnum3v, hmax3v, ?_, _, gc_all_live inv3.wf inv3.noMarks hall3, ?_⟩
  · show run newVM (chainOps (536870911 + 1)) = _
    rw [chainOps, run_append, hrun]
    simp only [Option.bind, run, hst2, hst3]
  · rw [hnum3v, hmax3v]
    decide
  · show ¬ vm3.numObjects <
      (if vm3.numObjects = 0 then INIT_OBJ_NUM_MAX else wrapInt (vm3.numObjects * 2))
    rw [hnum3v]
    decide

end GC
